import Mathlib

/-!
# Verification of `bevy_light_field` core algorithms

Shallow embedding of the core algorithms of the `bevy_light_field`
repository (`src/stream.rs`, `src/person_detect.rs`, `src/pipeline.rs`,
`tools/viewer.rs`) together with proofs and refutations of the
specification's claims about them.

Machine integers are modelled as `Nat`/`Int` with explicit wrap-around
where the Rust code can overflow; byte buffers are `List Nat` whose
elements are byte values; fallible code returns `Option` or carries an
explicit error field.  Filesystem state is modelled explicitly (see the
pipeline section below).
-/

namespace LightField

/-! ## BitstreamReframer: `convert_h264` (src/stream.rs:527-547)

```rust
fn convert_h264(data: &mut [u8]) -> Result<(), Error> {
    let mut i = 0;
    while i < data.len() - 3 {
        let len = u32::from_be_bytes([data[i], data[i + 1], data[i + 2], data[i + 3]]) as usize;
        data[i] = 0;
        data[i + 1] = 0;
        data[i + 2] = 0;
        data[i + 3] = 1;
        i += 4 + len;
        if i > data.len() {
            bail!("partial NAL body");
        }
    }
    if i < data.len() {
        bail!("partial NAL length");
    }
    Ok(())
}
```

The buffer is a mutable slice: the caller observes the mutated buffer even
when the function returns an error, so the model returns the final buffer
together with an optional error.  `data.len() - 3` is release-mode `usize`
arithmetic: for `data.len() < 3` it wraps around to a huge value, after
which the indexing `data[i] ..= data[i+3]` goes out of bounds and the Rust
program panics; the model reports this as the `indexPanic` outcome.
-/

/-- Outcomes of `convert_h264` other than success: the two `bail!` framing
errors, and the out-of-bounds indexing panic reachable for buffers shorter
than 3 bytes (where `data.len() - 3` wraps around). -/
inductive H264Error
  | partialBody
  | partialLength
  | indexPanic
deriving DecidableEq, Repr

/-- The final state of the byte buffer after `convert_h264` together with
its result (`error = none` models `Ok(())`). -/
structure ConvResult where
  data : List Nat
  error : Option H264Error
deriving DecidableEq, Repr

/-- `usize` subtraction of 3 in release mode: for `n ≥ 3` this is plain
subtraction (Rust values always have `n < 2^64`); for `n < 3` it wraps
around to `n + 2^64 - 3`, exactly the release-mode Rust value. -/
def usizeSub3 (n : Nat) : Nat :=
  if 3 ≤ n then n - 3 else n + (2 ^ 64 - 3)

/-- The `while` loop of `convert_h264`, at loop counter `i`.
Reads the 4-byte big-endian length at `i` (`u32::from_be_bytes`),
overwrites those bytes with `00 00 00 01`, advances by `4 + len`, and
fails with `partialBody` on overrun or `partialLength` if the final
position is strictly inside the buffer. -/
def convertLoop (data : List Nat) (i : Nat) : ConvResult :=
  if i < usizeSub3 data.length then
    if h : i + 3 < data.length then
      let len := 2 ^ 24 * data[i] + 2 ^ 16 * data[i + 1] + 2 ^ 8 * data[i + 2] + data[i + 3]
      let data' := (((data.set i 0).set (i + 1) 0).set (i + 2) 0).set (i + 3) 1
      if i + 4 + len > data'.length then
        { data := data', error := some .partialBody }
      else
        convertLoop data' (i + 4 + len)
    else
      { data := data, error := some .indexPanic }
  else if i < data.length then
    { data := data, error := some .partialLength }
  else
    { data := data, error := none }
termination_by data.length - i
decreasing_by
  simp only [List.length_set]
  omega

/-- `convert_h264` itself: run the loop from position 0. -/
def convert_h264 (data : List Nat) : ConvResult :=
  convertLoop data 0

/-- The 4 big-endian bytes of a `u32` length value. -/
def be32Bytes (L : Nat) : List Nat :=
  [L / 2 ^ 24 % 256, L / 2 ^ 16 % 256, L / 2 ^ 8 % 256, L % 256]

/-- One wire-framed unit: 4-byte big-endian length followed by the payload. -/
def encodeUnit (p : List Nat) : List Nat :=
  be32Bytes p.length ++ p

/-- The Annex B start code written over each length field. -/
def startCode : List Nat := [0, 0, 0, 1]

/-- One reframed unit: start code followed by the untouched payload. -/
def reframeUnit (p : List Nat) : List Nat :=
  startCode ++ p

/-- Reading inside the middle list of an append at offset `pre.length + k`. -/
theorem getElem_middle (pre l suffix : List Nat) (k : Nat) (hk : k < l.length)
    (hlt : pre.length + k < (pre ++ l ++ suffix).length) :
    (pre ++ l ++ suffix)[pre.length + k] = l[k] := by
  have h1 : (pre ++ l ++ suffix)[pre.length + k]? = some l[k] := by
    rw [List.append_assoc, List.getElem?_append_right (by omega)]
    rw [Nat.add_sub_cancel_left, List.getElem?_append_left hk]
    exact List.getElem?_eq_getElem hk
  have h2 := List.getElem?_eq_getElem hlt
  rw [h1] at h2
  exact (Option.some.injEq _ _).mp h2.symm

/-- Writing the start code over the 4 length bytes of the unit that starts
at position `pre.length` turns that encoded unit into a reframed unit and
touches nothing else. -/
theorem set_encode (pre p suffix : List Nat) :
    (((((pre ++ encodeUnit p ++ suffix).set pre.length 0).set (pre.length + 1) 0).set
        (pre.length + 2) 0).set (pre.length + 3) 1)
      = pre ++ reframeUnit p ++ suffix := by
  simp only [encodeUnit, reframeUnit, be32Bytes, startCode, List.append_assoc, List.cons_append,
    List.nil_append]
  rw [List.set_append_right _ _ (by omega), List.set_append_right _ _ (by omega),
    List.set_append_right _ _ (by omega), List.set_append_right _ _ (by omega)]
  simp only [List.length_set, Nat.sub_self, Nat.add_sub_cancel_left, List.set_cons_zero,
    List.set_cons_succ]

/-- One iteration of the `convert_h264` loop at a unit boundary: the 4-byte
length field of the next complete unit is replaced by the start code and the
loop advances past the unit. -/
theorem convertLoop_step (pre p suffix : List Nat) (hp : p.length < 2 ^ 32) :
    convertLoop (pre ++ encodeUnit p ++ suffix) pre.length
      = convertLoop (pre ++ reframeUnit p ++ suffix) (pre.length + 4 + p.length) := by
  have hlen : (pre ++ encodeUnit p ++ suffix).length
      = pre.length + 4 + p.length + suffix.length := by
    simp [encodeUnit, be32Bytes]; omega
  have hcond : pre.length < usizeSub3 (pre ++ encodeUnit p ++ suffix).length := by
    rw [hlen]; simp only [usizeSub3]; split <;> omega
  have hidx : pre.length + 3 < (pre ++ encodeUnit p ++ suffix).length := by omega
  have hunit : (4 : Nat) ≤ (encodeUnit p).length := by simp [encodeUnit, be32Bytes]
  have e0 : (pre ++ encodeUnit p ++ suffix)[pre.length] = p.length / 2 ^ 24 % 256 := by
    have := getElem_middle pre (encodeUnit p) suffix 0 (by omega) (by omega)
    simpa [encodeUnit, be32Bytes] using this
  have e1 : (pre ++ encodeUnit p ++ suffix)[pre.length + 1] = p.length / 2 ^ 16 % 256 := by
    have := getElem_middle pre (encodeUnit p) suffix 1 (by omega) (by omega)
    simpa [encodeUnit, be32Bytes] using this
  have e2 : (pre ++ encodeUnit p ++ suffix)[pre.length + 2] = p.length / 2 ^ 8 % 256 := by
    have := getElem_middle pre (encodeUnit p) suffix 2 (by omega) (by omega)
    simpa [encodeUnit, be32Bytes] using this
  have e3 : (pre ++ encodeUnit p ++ suffix)[pre.length + 3] = p.length % 256 := by
    have := getElem_middle pre (encodeUnit p) suffix 3 (by omega) (by omega)
    simpa [encodeUnit, be32Bytes] using this
  have edec : 2 ^ 24 * (p.length / 2 ^ 24 % 256) + 2 ^ 16 * (p.length / 2 ^ 16 % 256)
      + 2 ^ 8 * (p.length / 2 ^ 8 % 256) + p.length % 256 = p.length := by omega
  rw [convertLoop, if_pos hcond, dif_pos hidx]
  simp only [e0, e1, e2, e3, edec, set_encode, List.length_set]
  have hover : ¬ pre.length + 4 + p.length > (pre ++ reframeUnit p ++ suffix).length := by
    simp [reframeUnit, startCode]; omega
  rw [if_neg hover]

/-- Running the loop from a fully processed prefix over a concatenation of
complete encoded units succeeds and reframes every unit. -/
theorem convertLoop_join (us : List (List Nat)) (pre : List Nat)
    (hlen : ∀ p ∈ us, p.length < 2 ^ 32) (hpre : 3 ≤ pre.length ∨ us ≠ []) :
    convertLoop (pre ++ (us.map encodeUnit).flatten) pre.length
      = { data := pre ++ (us.map reframeUnit).flatten, error := none } := by
  induction us generalizing pre with
  | nil =>
    have h3 : 3 ≤ pre.length := by
      rcases hpre with h | h
      · exact h
      · exact absurd rfl h
    simp only [List.map_nil, List.flatten_nil, List.append_nil]
    rw [convertLoop, if_neg (by simp only [usizeSub3, if_pos h3]; omega), if_neg (by omega)]
  | cons p rest ih =>
    have hp : p.length < 2 ^ 32 := hlen p (List.mem_cons_self _ _)
    simp only [List.map_cons, List.flatten_cons, ← List.append_assoc]
    rw [convertLoop_step pre p _ hp]
    have hpre' : pre.length + 4 + p.length = (pre ++ reframeUnit p).length := by
      simp [reframeUnit, startCode]; omega
    rw [hpre']
    exact ih _ (fun q hq => hlen q (List.mem_cons_of_mem _ hq))
      (Or.inl (by simp [reframeUnit, startCode]; omega))

/-- Writing the start code over any 4 bytes that start at position
`pre.length` and touching nothing else. -/
theorem set4_start (pre : List Nat) (b0 b1 b2 b3 : Nat) (suffix : List Nat) :
    (((((pre ++ [b0, b1, b2, b3] ++ suffix).set pre.length 0).set (pre.length + 1) 0).set
        (pre.length + 2) 0).set (pre.length + 3) 1)
      = pre ++ [0, 0, 0, 1] ++ suffix := by
  simp only [List.append_assoc, List.cons_append, List.nil_append]
  rw [List.set_append_right _ _ (by omega), List.set_append_right _ _ (by omega),
    List.set_append_right _ _ (by omega), List.set_append_right _ _ (by omega)]
  simp only [List.length_set, Nat.sub_self, Nat.add_sub_cancel_left, List.set_cons_zero,
    List.set_cons_succ]

/-- Walking over a concatenation of complete encoded units reframes each of
them and moves the loop counter to the far unit boundary, whatever follows. -/
theorem convertLoop_units (us : List (List Nat)) (pre suffix : List Nat)
    (hlen : ∀ p ∈ us, p.length < 2 ^ 32) :
    convertLoop (pre ++ (us.map encodeUnit).flatten ++ suffix) pre.length
      = convertLoop (pre ++ (us.map reframeUnit).flatten ++ suffix)
          (pre.length + ((us.map encodeUnit).flatten).length) := by
  induction us generalizing pre with
  | nil => simp
  | cons p rest ih =>
    have hp : p.length < 2 ^ 32 := hlen p (List.mem_cons_self _ _)
    simp only [List.map_cons, List.flatten_cons, ← List.append_assoc]
    have h1 : pre ++ encodeUnit p ++ (rest.map encodeUnit).flatten ++ suffix
        = pre ++ encodeUnit p ++ ((rest.map encodeUnit).flatten ++ suffix) := by
      simp [List.append_assoc]
    rw [h1, convertLoop_step pre p _ hp]
    have h2 : pre ++ reframeUnit p ++ ((rest.map encodeUnit).flatten ++ suffix)
        = (pre ++ reframeUnit p) ++ (rest.map encodeUnit).flatten ++ suffix := by
      simp [List.append_assoc]
    have h3 : pre.length + 4 + p.length = (pre ++ reframeUnit p).length := by
      simp [reframeUnit, startCode]; omega
    rw [h2, h3, ih _ (fun q hq => hlen q (List.mem_cons_of_mem _ hq))]
    have h4 : (pre ++ reframeUnit p) ++ (rest.map reframeUnit).flatten ++ suffix
        = pre ++ (reframeUnit p ++ (rest.map reframeUnit).flatten) ++ suffix := by
      simp [List.append_assoc]
    have h5 : (pre ++ reframeUnit p).length + ((rest.map encodeUnit).flatten).length
        = pre.length + ((encodeUnit p).length + ((rest.map encodeUnit).flatten).length) := by
      simp [reframeUnit, startCode, encodeUnit, be32Bytes]; omega
    rw [h4, h5, List.length_append]

/-- The loop at a position that is exactly the end of the buffer succeeds
(for buffers of at least 3 bytes, where `data.len() - 3` does not wrap). -/
theorem convertLoop_at_end (data : List Nat) (h3 : 3 ≤ data.length) :
    convertLoop data data.length = { data := data, error := none } := by
  rw [convertLoop, if_neg (by simp only [usizeSub3, if_pos h3]; omega), if_neg (by omega)]

/-- The loop at a unit boundary followed by a 1- to 3-byte tail reports a
partial trailing length without touching the buffer (provided the whole
buffer has at least 3 bytes, so that `data.len() - 3` does not wrap). -/
theorem convertLoop_partial_length (done t : List Nat) (h0 : 0 < t.length)
    (h3 : t.length < 4) (htot : 3 ≤ done.length + t.length) :
    convertLoop (done ++ t) done.length
      = { data := done ++ t, error := some .partialLength } := by
  have hlen : (done ++ t).length = done.length + t.length := by simp
  rw [convertLoop, if_neg (by rw [hlen]; simp only [usizeSub3, if_pos htot]; omega),
    if_pos (by rw [hlen]; omega)]

/-- The loop at a unit boundary followed by a complete 4-byte length field
whose announced body length overruns the remaining bytes: the length field
is overwritten with the start code and the loop fails with a partial-body
error. -/
theorem convertLoop_partial_body (done : List Nat) (b0 b1 b2 b3 : Nat) (rest : List Nat)
    (hover : rest.length < 2 ^ 24 * b0 + 2 ^ 16 * b1 + 2 ^ 8 * b2 + b3) :
    convertLoop (done ++ [b0, b1, b2, b3] ++ rest) done.length
      = { data := done ++ [0, 0, 0, 1] ++ rest, error := some .partialBody } := by
  have hlen : (done ++ [b0, b1, b2, b3] ++ rest).length
      = done.length + 4 + rest.length := by simp; omega
  have hcond : done.length < usizeSub3 (done ++ [b0, b1, b2, b3] ++ rest).length := by
    rw [hlen]; simp only [usizeSub3]; split <;> omega
  have hidx : done.length + 3 < (done ++ [b0, b1, b2, b3] ++ rest).length := by omega
  have e0 : (done ++ [b0, b1, b2, b3] ++ rest)[done.length] = b0 := by
    have := getElem_middle done [b0, b1, b2, b3] rest 0 (by simp) (by omega)
    simpa using this
  have e1 : (done ++ [b0, b1, b2, b3] ++ rest)[done.length + 1] = b1 := by
    have := getElem_middle done [b0, b1, b2, b3] rest 1 (by simp) (by omega)
    simpa using this
  have e2 : (done ++ [b0, b1, b2, b3] ++ rest)[done.length + 2] = b2 := by
    have := getElem_middle done [b0, b1, b2, b3] rest 2 (by simp) (by omega)
    simpa using this
  have e3 : (done ++ [b0, b1, b2, b3] ++ rest)[done.length + 3] = b3 := by
    have := getElem_middle done [b0, b1, b2, b3] rest 3 (by simp) (by omega)
    simpa using this
  rw [convertLoop, if_pos hcond, dif_pos hidx]
  simp only [e0, e1, e2, e3, set4_start, List.length_set]
  rw [if_pos (by simp only [List.length_append, List.length_cons, List.length_nil]; omega)]

/-- Buffers shorter than 3 bytes make `data.len() - 3` wrap around, after
which the 4-byte read at position 0 goes out of bounds: a panic, not a
framing error. -/
theorem convert_h264_short_panics (t : List Nat) (h : t.length < 3) :
    convert_h264 t = { data := t, error := some .indexPanic } := by
  rw [convert_h264, convertLoop, if_pos (by unfold usizeSub3; split <;> omega),
    dif_neg (by omega)]

/-- A nonempty list of units flattens to at least 4 bytes. -/
theorem reframe_flatten_len (us : List (List Nat)) (hne : us ≠ []) :
    4 ≤ ((us.map reframeUnit).flatten).length := by
  cases us with
  | nil => exact absurd rfl hne
  | cons p rest => simp [reframeUnit, startCode]

/-- **C1.** For every byte buffer that is a concatenation of one or more
units of the form (4-byte big-endian length `L`, followed by exactly `L`
payload bytes), `convert_h264` succeeds, replaces each unit's 4-byte length
field with the literal bytes `00 00 00 01`, and leaves every payload byte
unchanged.  (Determinism is immediate: the model is a pure function of the
input buffer, exactly as the Rust function is.) -/
theorem convert_h264_reframes_valid_buffers (us : List (List Nat)) (hne : us ≠ [])
    (hlen : ∀ p ∈ us, p.length < 2 ^ 32) :
    convert_h264 ((us.map encodeUnit).flatten)
      = { data := (us.map reframeUnit).flatten, error := none } := by
  have h := convertLoop_join us [] hlen (Or.inr hne)
  simpa [convert_h264] using h

/-- **C1 witness**: the buffer `[0,0,0,2, 7,8, 0,0,0,1, 9]`, two valid units
with payloads `[7,8]` and `[9]`, is reframed successfully. -/
theorem convert_h264_reframes_valid_buffers_witness :
    convert_h264 ((([[7, 8], [9]] : List (List Nat)).map encodeUnit).flatten)
      = { data := (([[7, 8], [9]] : List (List Nat)).map reframeUnit).flatten,
          error := none } :=
  convert_h264_reframes_valid_buffers [[7, 8], [9]] (by decide) (by decide)

/-- **C2 counterexample.** The claim states that on a truncated final unit
no byte of the truncated trailing unit, including its length field, is
modified.  On the buffer `[0,0,0,5, 1,2]` (zero complete units, then a
complete 4-byte length field announcing 5 body bytes of which only 2 are
present) the code overwrites the truncated unit's length field with
`00 00 00 01` before reporting the partial-body error: byte 3 changes from
`5` to `1`. -/
theorem convert_h264_truncated_mutates_length_field :
    convert_h264 [0, 0, 0, 5, 1, 2]
      = { data := [0, 0, 0, 1, 1, 2], error := some .partialBody } ∧
    (convert_h264 [0, 0, 0, 5, 1, 2]).data ≠ [0, 0, 0, 5, 1, 2] := by
  constructor
  · simp [convert_h264, convertLoop, usizeSub3]
  · simp [convert_h264, convertLoop, usizeSub3]

/-- **C2 (amended).** Reframing a buffer of zero or more complete units
followed by a truncated tail fails with a framing error and mutates no byte
beyond the last fully valid unit boundary, **except** that when the
truncated trailing unit's 4-byte length field is completely present, that
length field is overwritten with `00 00 00 01` before the error is
reported; buffers of fewer than 3 bytes (possible only with zero complete
units) cause an out-of-bounds indexing panic instead of a framing error:

1. a 1–3 byte truncated trailing length field (with at least one complete
   unit, or 3 tail bytes, so the buffer has ≥ 3 bytes) gives a
   `partial NAL length` error with no byte of the tail modified;
2. a complete 4-byte length field announcing more body bytes than remain
   gives a `partial NAL body` error with exactly those 4 bytes overwritten
   by the start code;
3. a buffer of fewer than 3 bytes panics with no byte modified. -/
theorem convert_h264_truncated_behavior :
    (∀ (us : List (List Nat)) (t : List Nat), (∀ p ∈ us, p.length < 2 ^ 32) →
      0 < t.length → t.length < 4 → (us ≠ [] ∨ t.length = 3) →
      convert_h264 ((us.map encodeUnit).flatten ++ t)
        = { data := (us.map reframeUnit).flatten ++ t, error := some .partialLength })
    ∧
    (∀ (us : List (List Nat)) (b0 b1 b2 b3 : Nat) (rest : List Nat),
      (∀ p ∈ us, p.length < 2 ^ 32) →
      rest.length < 2 ^ 24 * b0 + 2 ^ 16 * b1 + 2 ^ 8 * b2 + b3 →
      convert_h264 ((us.map encodeUnit).flatten ++ ([b0, b1, b2, b3] ++ rest))
        = { data := (us.map reframeUnit).flatten ++ ([0, 0, 0, 1] ++ rest),
            error := some .partialBody })
    ∧
    (∀ t : List Nat, t.length < 3 →
      convert_h264 t = { data := t, error := some .indexPanic }) := by
  refine ⟨?_, ?_, convert_h264_short_panics⟩
  · intro us t hlen h0 h3 hor
    have hu := convertLoop_units us [] t hlen
    simp only [List.nil_append, List.length_nil, Nat.zero_add] at hu
    rw [convert_h264, hu]
    have hflat : ((us.map encodeUnit).flatten).length
        = ((us.map reframeUnit).flatten).length := by
      simp only [List.length_flatten, List.map_map]
      exact congrArg List.sum (List.map_congr_left fun p _ => by
        simp [Function.comp, encodeUnit, reframeUnit, be32Bytes, startCode])
    rw [hflat]
    refine convertLoop_partial_length _ _ h0 h3 ?_
    rcases hor with hne | ht
    · have := reframe_flatten_len us hne
      omega
    · omega
  · intro us b0 b1 b2 b3 rest hlen hover
    have hu := convertLoop_units us [] ([b0, b1, b2, b3] ++ rest) hlen
    simp only [List.nil_append, List.length_nil, Nat.zero_add] at hu
    rw [convert_h264, hu]
    have hflat : ((us.map encodeUnit).flatten).length
        = ((us.map reframeUnit).flatten).length := by
      simp only [List.length_flatten, List.map_map]
      exact congrArg List.sum (List.map_congr_left fun p _ => by
        simp [Function.comp, encodeUnit, reframeUnit, be32Bytes, startCode])
    rw [hflat]
    have hb := convertLoop_partial_body ((us.map reframeUnit).flatten) b0 b1 b2 b3 rest hover
    simp only [List.append_assoc] at hb
    exact hb

/-- **C2 witness**: the three amended cases at concrete inputs: one valid
unit `[0,0,0,1, 9]` followed by a lone truncated length byte `[6]`; one
valid unit followed by a length field announcing 7 bytes with only 1
present; and the 2-byte buffer `[0, 0]`. -/
theorem convert_h264_truncated_behavior_witness :
    (convert_h264 ((([[9]] : List (List Nat)).map encodeUnit).flatten ++ [6])
      = { data := (([[9]] : List (List Nat)).map reframeUnit).flatten ++ [6],
          error := some .partialLength })
    ∧
    (convert_h264 ((([[9]] : List (List Nat)).map encodeUnit).flatten ++ ([0, 0, 0, 7] ++ [5]))
      = { data := (([[9]] : List (List Nat)).map reframeUnit).flatten ++ ([0, 0, 0, 1] ++ [5]),
          error := some .partialBody })
    ∧
    (convert_h264 [0, 0] = { data := [0, 0], error := some .indexPanic }) :=
  ⟨convert_h264_truncated_behavior.1 [[9]] [6] (by decide) (by decide) (by decide)
      (Or.inl (by decide)),
   convert_h264_truncated_behavior.2.1 [[9]] 0 0 0 7 [5] (by decide) (by decide),
   convert_h264_truncated_behavior.2.2 [0, 0] (by decide)⟩

/-! ## PersonActivityDetector (src/person_detect.rs)

`masked_bounding_box` scans every pixel of a single-channel mask image, and
with a rayon `filter_map` + `reduce_with(min/min/max/max)` computes the
tight box around all pixels whose intensity exceeds `128`.  The reduction
operator is associative and commutative, so the arbitrary rayon reduction
order returns the same result as the sequential left fold used here.
Pixel coordinates are cast `as i32` (`asI32` below); a `Luma8` image is
modelled by its dimensions and intensity function.  `sum_masked_pixels`
sums `pixel / 255.0` over all pixels as an `f32`; the model idealizes the
`f32` arithmetic as exact rational arithmetic (the claims settled here do
not depend on rounding).

`detect_person` (src/person_detect.rs:43-79) is the per-frame system: for
each modified mask image it computes `masked_bounding_box` and
`sum_masked_pixels`, then hardcodes `let person_detected = false;` under a
`// TODO: add thresholds for detection` comment, so the `if person_detected`
send of `PersonDetectedEvent` is dead code.
-/

/-- `i32` cast of a pixel coordinate (wrapping for values ≥ 2^31, exactly
like `x as i32` in Rust). -/
def asI32 (n : Nat) : Int :=
  ((n + 2 ^ 31) % 2 ^ 32 : Nat) - 2 ^ 31

theorem asI32_of_lt (n : Nat) (h : n < 2 ^ 31) : asI32 n = n := by
  unfold asI32
  have : (n + 2 ^ 31) % 2 ^ 32 = n + 2 ^ 31 := Nat.mod_eq_of_lt (by omega)
  rw [this]
  push_cast
  omega

/-- `BoundingBox` (src/person_detect.rs:28-33): `i32` pixel coordinates. -/
structure BoundingBox where
  x : Int
  y : Int
  width : Int
  height : Int
deriving DecidableEq, Repr, Inhabited

/-- A single-channel `Luma8` image: dimensions plus the intensity of the
pixel in column `x`, row `y`. -/
structure Luma8 where
  width : Nat
  height : Nat
  pixel : Nat → Nat → Nat

/-- `img.enumerate_pixels()`: every `(x, y, intensity)` triple in row-major
order. -/
def pixelSeq (img : Luma8) : List (Nat × Nat × Nat) :=
  (List.range img.height).flatMap fun y =>
    (List.range img.width).map fun x => (x, y, img.pixel x y)

/-- The `filter_map` stage of `masked_bounding_box`: pixels whose intensity
exceeds 128 become the quadruple `(x, y, x, y)` of `i32` values. -/
def onQuads (img : Luma8) : List (Int × Int × Int × Int) :=
  (pixelSeq img).filterMap fun q =>
    if 128 < q.2.2 then some (asI32 q.1, asI32 q.2.1, asI32 q.1, asI32 q.2.1) else none

/-- The `reduce_with` combiner: componentwise min/min/max/max. -/
def quadComb (a b : Int × Int × Int × Int) : Int × Int × Int × Int :=
  (min a.1 b.1, min a.2.1 b.2.1, max a.2.2.1 b.2.2.1, max a.2.2.2 b.2.2.2)

/-- `masked_bounding_box` (src/person_detect.rs:83-127). -/
def masked_bounding_box (img : Luma8) : Option BoundingBox :=
  let bounding_boxes :=
    match onQuads img with
    | [] => none
    | q :: rest => some (rest.foldl quadComb q)
  bounding_boxes.map fun r =>
    { x := r.1, y := r.2.1, width := r.2.2.1 - r.1 + 1, height := r.2.2.2 - r.2.1 + 1 }

/-- `sum_masked_pixels` (src/person_detect.rs:130-141): the sum of all
pixel intensities normalized by 255 (`f32` idealized as `ℚ`). -/
def sum_masked_pixels (img : Luma8) : ℚ :=
  ((pixelSeq img).map fun q => (q.2.2 : ℚ) / 255).sum

/-- `PersonDetectedEvent` (src/person_detect.rs:36-40). -/
structure PersonDetectedEvent where
  stream_id : Nat
  bounding_box : BoundingBox
  mask_sum : ℚ
deriving DecidableEq, Repr

/-- The events emitted by one `detect_person` pass over one modified mask
image (src/person_detect.rs:52-78).  The code computes the bounding box and
the mask sum, then sets `let person_detected = false;` (with a TODO to add
thresholds), so the event send is unreachable. -/
def detect_person_events (streamId : Nat) (img : Luma8) : List PersonDetectedEvent :=
  let bounding_box := masked_bounding_box img
  let sum := sum_masked_pixels img
  let person_detected := false
  if person_detected then
    [{ stream_id := streamId, bounding_box := bounding_box.get!, mask_sum := sum }]
  else
    []

theorem mem_pixelSeq (img : Luma8) (q : Nat × Nat × Nat) :
    q ∈ pixelSeq img ↔ ∃ x y, x < img.width ∧ y < img.height ∧ q = (x, y, img.pixel x y) := by
  simp only [pixelSeq, List.mem_flatMap, List.mem_map, List.mem_range]
  constructor
  · rintro ⟨y, hy, x, hx, rfl⟩
    exact ⟨x, y, hx, hy, rfl⟩
  · rintro ⟨x, y, hx, hy, rfl⟩
    exact ⟨y, hy, x, hx, rfl⟩

theorem mem_onQuads (img : Luma8) (t : Int × Int × Int × Int) :
    t ∈ onQuads img ↔ ∃ x y, x < img.width ∧ y < img.height ∧ 128 < img.pixel x y ∧
      t = (asI32 x, asI32 y, asI32 x, asI32 y) := by
  simp only [onQuads, List.mem_filterMap]
  constructor
  · rintro ⟨q, hq, hf⟩
    rw [mem_pixelSeq] at hq
    obtain ⟨x, y, hx, hy, rfl⟩ := hq
    by_cases hp : 128 < img.pixel x y
    · rw [if_pos hp] at hf
      exact ⟨x, y, hx, hy, hp, ((Option.some.injEq _ _).mp hf).symm⟩
    · rw [if_neg hp] at hf
      exact absurd hf (by simp)
  · rintro ⟨x, y, hx, hy, hp, rfl⟩
    exact ⟨(x, y, img.pixel x y), (mem_pixelSeq img _).mpr ⟨x, y, hx, hy, rfl⟩, if_pos hp⟩

theorem foldl_min_le (l : List Int) (a : Int) :
    l.foldl min a ≤ a ∧ ∀ x ∈ l, l.foldl min a ≤ x := by
  induction l generalizing a with
  | nil => simp
  | cons b t ih =>
    refine ⟨le_trans (ih (min a b)).1 (min_le_left _ _), ?_⟩
    intro x hx
    rcases List.mem_cons.mp hx with rfl | hx
    · exact le_trans (ih (min a x)).1 (min_le_right _ _)
    · exact (ih (min a b)).2 x hx

theorem foldl_min_mem (l : List Int) (a : Int) :
    l.foldl min a = a ∨ l.foldl min a ∈ l := by
  induction l generalizing a with
  | nil => simp
  | cons b t ih =>
    rcases ih (min a b) with h | h
    · rcases min_choice a b with hm | hm
      · left; rw [List.foldl_cons, h, hm]
      · right; rw [List.foldl_cons, h, hm]; exact List.mem_cons_self _ _
    · right; rw [List.foldl_cons]; exact List.mem_cons_of_mem _ h

theorem foldl_max_ge (l : List Int) (a : Int) :
    a ≤ l.foldl max a ∧ ∀ x ∈ l, x ≤ l.foldl max a := by
  induction l generalizing a with
  | nil => simp
  | cons b t ih =>
    refine ⟨le_trans (le_max_left _ _) (ih (max a b)).1, ?_⟩
    intro x hx
    rcases List.mem_cons.mp hx with rfl | hx
    · exact le_trans (le_max_right _ _) (ih (max a x)).1
    · exact (ih (max a b)).2 x hx

theorem foldl_max_mem (l : List Int) (a : Int) :
    l.foldl max a = a ∨ l.foldl max a ∈ l := by
  induction l generalizing a with
  | nil => simp
  | cons b t ih =>
    rcases ih (max a b) with h | h
    · rcases max_choice a b with hm | hm
      · left; rw [List.foldl_cons, h, hm]
      · right; rw [List.foldl_cons, h, hm]; exact List.mem_cons_self _ _
    · right; rw [List.foldl_cons]; exact List.mem_cons_of_mem _ h

/-- The quadruple fold computes the four componentwise extrema. -/
theorem foldl_comb_eq (q : Int × Int × Int × Int) (rest : List (Int × Int × Int × Int)) :
    rest.foldl quadComb q
      = ((rest.map fun t => t.1).foldl min q.1,
         (rest.map fun t => t.2.1).foldl min q.2.1,
         (rest.map fun t => t.2.2.1).foldl max q.2.2.1,
         (rest.map fun t => t.2.2.2).foldl max q.2.2.2) := by
  induction rest generalizing q with
  | nil => rfl
  | cons b t ih => simp [List.foldl_cons, ih, quadComb]

/-- The fold of `min` over the `f`-projections equals `target` when `target`
is attained by some quadruple and is a lower bound for all of them. -/
theorem foldl_min_eq (f : Int × Int × Int × Int → Int) (q : Int × Int × Int × Int)
    (rest : List (Int × Int × Int × Int)) (target : Int)
    (hmem : ∃ t ∈ q :: rest, f t = target)
    (hlb : ∀ t ∈ q :: rest, target ≤ f t) :
    (rest.map f).foldl min (f q) = target := by
  apply le_antisymm
  · obtain ⟨t, ht, rfl⟩ := hmem
    rcases List.mem_cons.mp ht with rfl | ht
    · exact (foldl_min_le _ _).1
    · exact (foldl_min_le _ _).2 _ (List.mem_map_of_mem _ ht)
  · rcases foldl_min_mem (rest.map f) (f q) with hm | hm
    · rw [hm]; exact hlb q (List.mem_cons_self _ _)
    · obtain ⟨t, ht, heq⟩ := List.mem_map.mp hm
      rw [← heq]; exact hlb t (List.mem_cons_of_mem _ ht)

/-- Dual of `foldl_min_eq` for `max`. -/
theorem foldl_max_eq (f : Int × Int × Int × Int → Int) (q : Int × Int × Int × Int)
    (rest : List (Int × Int × Int × Int)) (target : Int)
    (hmem : ∃ t ∈ q :: rest, f t = target)
    (hub : ∀ t ∈ q :: rest, f t ≤ target) :
    (rest.map f).foldl max (f q) = target := by
  apply le_antisymm
  · rcases foldl_max_mem (rest.map f) (f q) with hm | hm
    · rw [hm]; exact hub q (List.mem_cons_self _ _)
    · obtain ⟨t, ht, heq⟩ := List.mem_map.mp hm
      rw [← heq]; exact hub t (List.mem_cons_of_mem _ ht)
  · obtain ⟨t, ht, rfl⟩ := hmem
    rcases List.mem_cons.mp ht with rfl | ht
    · exact (foldl_max_ge _ _).1
    · exact (foldl_max_ge _ _).2 _ (List.mem_map_of_mem _ ht)

/-- **C7.** For a single-channel mask image in which exactly the pixels of
one axis-aligned rectangle (top-left `(x0, y0)`, extent `w × h`) exceed the
threshold 128 and all other pixels do not, `masked_bounding_box` returns
exactly that rectangle; for an image with no pixel above the threshold it
returns `None`.  (Dimensions up to `2^31` keep the `as i32` casts exact;
any real `Luma8` buffer satisfies this.) -/
theorem masked_bounding_box_spec :
    (∀ (img : Luma8) (x0 y0 w h : Nat),
      0 < w → 0 < h → x0 + w ≤ img.width → y0 + h ≤ img.height →
      img.width ≤ 2 ^ 31 → img.height ≤ 2 ^ 31 →
      (∀ x, x < img.width → ∀ y, y < img.height →
        (128 < img.pixel x y ↔ x0 ≤ x ∧ x < x0 + w ∧ y0 ≤ y ∧ y < y0 + h)) →
      masked_bounding_box img
        = some { x := (x0 : Int), y := (y0 : Int), width := (w : Int), height := (h : Int) })
    ∧
    (∀ img : Luma8,
      (∀ x, x < img.width → ∀ y, y < img.height → img.pixel x y ≤ 128) →
      masked_bounding_box img = none) := by
  constructor
  · intro img x0 y0 w h hw hh hxw hyh hW hH hpix
    have hcorner : ∀ x y : Nat, x0 ≤ x → x < x0 + w → y0 ≤ y → y < y0 + h →
        ((x : Int), (y : Int), (x : Int), (y : Int)) ∈ onQuads img := by
      intro x y h1 h2 h3 h4
      rw [mem_onQuads]
      refine ⟨x, y, by omega, by omega, (hpix x (by omega) y (by omega)).mpr ⟨h1, h2, h3, h4⟩, ?_⟩
      rw [asI32_of_lt x (by omega), asI32_of_lt y (by omega)]
    have hbound : ∀ t ∈ onQuads img, ∃ x y : Nat,
        x0 ≤ x ∧ x < x0 + w ∧ y0 ≤ y ∧ y < y0 + h ∧
        t = ((x : Int), (y : Int), (x : Int), (y : Int)) := by
      intro t ht
      rw [mem_onQuads] at ht
      obtain ⟨x, y, hx, hy, hp, rfl⟩ := ht
      have hr := (hpix x hx y hy).mp hp
      exact ⟨x, y, hr.1, hr.2.1, hr.2.2.1, hr.2.2.2,
        by rw [asI32_of_lt x (by omega), asI32_of_lt y (by omega)]⟩
    cases hqs : onQuads img with
    | nil =>
      exfalso
      have hmem := hcorner x0 y0 (le_refl _) (by omega) (le_refl _) (by omega)
      rw [hqs] at hmem
      exact absurd hmem (List.not_mem_nil _)
    | cons q rest =>
      have hball : ∀ t ∈ q :: rest, ∃ x y : Nat,
          x0 ≤ x ∧ x < x0 + w ∧ y0 ≤ y ∧ y < y0 + h ∧
          t = ((x : Int), (y : Int), (x : Int), (y : Int)) := by
        intro t ht
        exact hbound t (by rw [hqs]; exact ht)
      have hc0 : ((x0 : Int), (y0 : Int), (x0 : Int), (y0 : Int)) ∈ q :: rest := by
        rw [← hqs]; exact hcorner x0 y0 (le_refl _) (by omega) (le_refl _) (by omega)
      have hc1 : (((x0 + (w - 1) : Nat) : Int), ((y0 + (h - 1) : Nat) : Int),
          ((x0 + (w - 1) : Nat) : Int), ((y0 + (h - 1) : Nat) : Int)) ∈ q :: rest := by
        rw [← hqs]
        exact hcorner (x0 + (w - 1)) (y0 + (h - 1)) (by omega) (by omega) (by omega) (by omega)
      have hminx : (rest.map fun t => t.1).foldl min q.1 = (x0 : Int) := by
        refine foldl_min_eq (fun t => t.1) q rest _ ⟨_, hc0, rfl⟩ ?_
        intro t ht
        obtain ⟨x, y, h1, _, _, _, rfl⟩ := hball t ht
        show (x0 : Int) ≤ (x : Int)
        exact_mod_cast h1
      have hminy : (rest.map fun t => t.2.1).foldl min q.2.1 = (y0 : Int) := by
        refine foldl_min_eq (fun t => t.2.1) q rest _ ⟨_, hc0, rfl⟩ ?_
        intro t ht
        obtain ⟨x, y, _, _, h3, _, rfl⟩ := hball t ht
        show (y0 : Int) ≤ (y : Int)
        exact_mod_cast h3
      have hmaxx : (rest.map fun t => t.2.2.1).foldl max q.2.2.1
          = ((x0 + (w - 1) : Nat) : Int) := by
        refine foldl_max_eq (fun t => t.2.2.1) q rest _ ⟨_, hc1, rfl⟩ ?_
        intro t ht
        obtain ⟨x, y, _, h2, _, _, rfl⟩ := hball t ht
        show (x : Int) ≤ ((x0 + (w - 1) : Nat) : Int)
        have hb : x ≤ x0 + (w - 1) := by omega
        exact_mod_cast hb
      have hmaxy : (rest.map fun t => t.2.2.2).foldl max q.2.2.2
          = ((y0 + (h - 1) : Nat) : Int) := by
        refine foldl_max_eq (fun t => t.2.2.2) q rest _ ⟨_, hc1, rfl⟩ ?_
        intro t ht
        obtain ⟨x, y, _, _, _, h4, rfl⟩ := hball t ht
        show (y : Int) ≤ ((y0 + (h - 1) : Nat) : Int)
        have hb : y ≤ y0 + (h - 1) := by omega
        exact_mod_cast hb
      rw [masked_bounding_box, hqs]
      simp only [foldl_comb_eq, hminx, hminy, hmaxx, hmaxy, Option.map_some]
      have hwc : ((x0 + (w - 1) : Nat) : Int) - (x0 : Int) + 1 = (w : Int) := by
        push_cast [Nat.cast_sub (by omega : 1 ≤ w)]
        omega
      have hhc : ((y0 + (h - 1) : Nat) : Int) - (y0 : Int) + 1 = (h : Int) := by
        push_cast [Nat.cast_sub (by omega : 1 ≤ h)]
        omega
      simp [hwc, hhc]
      exact ⟨by omega, by omega⟩
  · intro img hbelow
    have hq : onQuads img = [] := by
      rw [onQuads, List.filterMap_eq_nil_iff]
      intro q hq
      rw [mem_pixelSeq] at hq
      obtain ⟨x, y, hx, hy, rfl⟩ := hq
      exact if_neg (by exact Nat.not_lt.mpr (hbelow x hx y hy))
    rw [masked_bounding_box, hq]
    rfl

/-- **C7 witness**: a 4×4 image whose rectangle `[1,2] × [1,2]` is at
intensity 200 and the rest at 0 yields exactly that box; a 2×2 image at
constant intensity 7 yields `None`. -/
theorem masked_bounding_box_spec_witness :
    masked_bounding_box
        ⟨4, 4, fun x y => if 1 ≤ x ∧ x ≤ 2 ∧ 1 ≤ y ∧ y ≤ 2 then 200 else 0⟩
      = some { x := 1, y := 1, width := 2, height := 2 } ∧
    masked_bounding_box ⟨2, 2, fun _ _ => 7⟩ = none := by
  constructor
  · have h := masked_bounding_box_spec.1
      ⟨4, 4, fun x y => if 1 ≤ x ∧ x ≤ 2 ∧ 1 ≤ y ∧ y ≤ 2 then 200 else 0⟩ 1 1 2 2
      (by decide) (by decide) (by decide) (by decide) (by decide) (by decide) (by decide)
    simpa using h
  · exact masked_bounding_box_spec.2 ⟨2, 2, fun _ _ => 7⟩ (by decide)

/-- **C5 (code bug).** `detect_person` never emits a `PersonDetectedEvent`:
`person_detected` is hardcoded to `false` (src/person_detect.rs:64-66, with
`// TODO: add thresholds for detection`), so no `coverage_ratio > 0.14`
rule exists in the code.  In particular, for the 1×1 all-white mask, whose
coverage ratio `sum / (width*height) = 1` exceeds `0.14`, no event is
emitted, contradicting the claimed detection rule. -/
theorem detect_person_emits_nothing :
    (∀ (sid : Nat) (img : Luma8), detect_person_events sid img = []) ∧
    (14 / 100 : ℚ) < sum_masked_pixels ⟨1, 1, fun _ _ => 255⟩ / ((1 * 1 : Nat) : ℚ) ∧
    detect_person_events 0 ⟨1, 1, fun _ _ => 255⟩ = [] := by
  refine ⟨fun sid img => rfl, ?_, rfl⟩
  norm_num [sum_masked_pixels, pixelSeq, List.range_succ]

/-! ## Recording hysteresis controller: `automatic_recording` (tools/viewer.rs:335-389)

```rust
fn automatic_recording(..., mut person_timeout: Local<Stopwatch>) {
    if live_session.0.is_some() {
        if person_timeout.elapsed_secs() > 3.0 {
            person_timeout.reset();
            let session_entity = live_session.0.take().unwrap();
            let raw_streams = stream_manager.stop_recording();
            commands.entity(session_entity).insert(RawStreams { streams: raw_streams });
        }
        person_timeout.tick(time.delta());
        for _ev in ev_person.read() { person_timeout.reset(); }
        return;
    }
    for ev in ev_person.read() {
        let session = Session::new("capture".to_string());
        stream_manager.start_recording(&session);
        let entity = commands.spawn(StreamSessionBundle { session, .. }).id();
        live_session.0 = Some(entity);
        break;
    }
}
```

One Bevy `Update` tick of the controller is modelled as a pure step
function of the controller state (the `LiveSession` resource and the
`Stopwatch`), given the frame's time delta, the `PersonDetectedEvent`s
delivered this tick, the file list that `stream_manager.stop_recording()`
would return, and the entity id a `commands.spawn` would allocate.  The
externally visible effects (starting a recording session, attaching the
raw-stream file list to the session entity) are returned as a list of
actions.  `f32` seconds are idealized as exact rationals; the traces used
below only involve dyadic values that `f32` represents exactly.  (Events
left unread after the `break` are redelivered by Bevy on the next tick;
the per-tick statements proved below do not depend on that.) -/

/-- Controller state: `LiveSession(Option<Entity>)` and the stopwatch's
elapsed seconds. -/
structure RecState where
  live : Option Nat
  elapsed : ℚ
deriving DecidableEq, Repr

/-- Externally visible effects of one controller tick. -/
inductive RecAction
  | startRecording (sessionEntity : Nat)
  | attachRawStreams (sessionEntity : Nat) (rawStreams : List String)
deriving DecidableEq, Repr

/-- One `Update` tick of `automatic_recording`. -/
def automatic_recording (st : RecState) (delta : ℚ) (events : List PersonDetectedEvent)
    (stopFiles : List String) (freshEntity : Nat) : RecState × List RecAction :=
  match st.live with
  | some sessionEntity =>
      let checked :=
        if st.elapsed > 3 then
          (({ live := none, elapsed := 0 } : RecState),
           [RecAction.attachRawStreams sessionEntity stopFiles])
        else (st, ([] : List RecAction))
      let ticked : RecState := { checked.1 with elapsed := checked.1.elapsed + delta }
      let drained : RecState := if events.isEmpty then ticked else { ticked with elapsed := 0 }
      (drained, checked.2)
  | none =>
      match events with
      | [] => (st, [])
      | _ :: _ =>
          (({ live := some freshEntity, elapsed := st.elapsed } : RecState),
           [RecAction.startRecording freshEntity])

/-- **C6 counterexample.** The claim says that once 3 **or more** continuous
seconds elapse with no detection event the recording stops.  Trace: a live
recording with a freshly reset stopwatch, one tick of exactly 3 seconds with
no events, then a tick in which a detection event arrives.  A full 3-second
event-free gap has elapsed, yet the stop check (`elapsed_secs() > 3.0`,
strict) never fires: no stop/attach action is ever emitted and the session
stays live (the event resets the timer). -/
theorem automatic_recording_exact_three_gap_keeps_recording :
    (automatic_recording { live := some 7, elapsed := 0 } 3 [] [] 99).2 = [] ∧
    (automatic_recording { live := some 7, elapsed := 0 } 3 [] [] 99).1
      = { live := some 7, elapsed := 3 } ∧
    (automatic_recording { live := some 7, elapsed := 3 }
        0 [{ stream_id := 0, bounding_box := default, mask_sum := 0 }] [] 99).2 = [] ∧
    (automatic_recording { live := some 7, elapsed := 3 }
        0 [{ stream_id := 0, bounding_box := default, mask_sum := 0 }] [] 99).1
      = { live := some 7, elapsed := 0 } := by
  refine ⟨?_, ?_, ?_, ?_⟩ <;> norm_num [automatic_recording]

/-- **C6 (amended).** Per-tick behaviour of the recording-hysteresis
controller:

1. with no live recording, a tick that delivers at least one detection
   event starts a new session and recording (one start action, session
   becomes live);
2. with no live recording and no events, nothing happens;
3. while recording, a tick whose idle stopwatch is at most 3 seconds stops
   nothing (the session stays live; the stopwatch advances by the frame
   delta, or resets to zero if an event arrived);
4. while recording, a tick whose idle stopwatch **strictly exceeds** 3
   seconds stops the recording and attaches the accumulated raw-stream
   file list exactly once (a single attach action; the session is no
   longer live, so no further attach can occur until a new session
   starts).

In particular detection events spaced less than 3 seconds apart never let
the stopwatch exceed 3 at a check, so the session stays open; the stop
happens at the first frame boundary at which the event-free time strictly
exceeds 3 seconds. -/
theorem automatic_recording_step_behavior :
    (∀ (st : RecState) (delta : ℚ) (events : List PersonDetectedEvent)
        (stopFiles : List String) (freshEntity : Nat),
      st.live = none → events ≠ [] →
      automatic_recording st delta events stopFiles freshEntity
        = ({ live := some freshEntity, elapsed := st.elapsed },
           [RecAction.startRecording freshEntity]))
    ∧
    (∀ (st : RecState) (delta : ℚ) (stopFiles : List String) (freshEntity : Nat),
      st.live = none →
      automatic_recording st delta [] stopFiles freshEntity = (st, []))
    ∧
    (∀ (st : RecState) (s : Nat) (delta : ℚ) (events : List PersonDetectedEvent)
        (stopFiles : List String) (freshEntity : Nat),
      st.live = some s → st.elapsed ≤ 3 →
      automatic_recording st delta events stopFiles freshEntity
        = ({ live := some s,
             elapsed := if events.isEmpty then st.elapsed + delta else 0 }, []))
    ∧
    (∀ (st : RecState) (s : Nat) (delta : ℚ) (events : List PersonDetectedEvent)
        (stopFiles : List String) (freshEntity : Nat),
      st.live = some s → 3 < st.elapsed →
      automatic_recording st delta events stopFiles freshEntity
        = ({ live := none, elapsed := if events.isEmpty then delta else 0 },
           [RecAction.attachRawStreams s stopFiles])) := by
  refine ⟨?_, ?_, ?_, ?_⟩
  · intro st delta events stopFiles freshEntity hlive hne
    cases events with
    | nil => exact absurd rfl hne
    | cons e rest => simp [automatic_recording, hlive]
  · intro st delta stopFiles freshEntity hlive
    simp [automatic_recording, hlive]
  · intro st s delta events stopFiles freshEntity hlive hle
    have hnot : ¬ st.elapsed > 3 := not_lt.mpr hle
    cases events with
    | nil => simp [automatic_recording, hlive, hnot]
    | cons e rest => simp [automatic_recording, hlive, hnot]
  · intro st s delta events stopFiles freshEntity hlive hgt
    cases events with
    | nil => simp [automatic_recording, hlive, hgt]
    | cons e rest => simp [automatic_recording, hlive, hgt]

/-- **C6 witness**: the four amended cases at concrete inputs: a start on a
first event, an idle tick, a quiet sub-3-second tick while recording, and a
stop-and-attach once the stopwatch exceeds 3 seconds. -/
theorem automatic_recording_step_behavior_witness :
    (automatic_recording { live := none, elapsed := 0 } 1
        [{ stream_id := 0, bounding_box := default, mask_sum := 0 }] ["0.mp4"] 5
      = ({ live := some 5, elapsed := 0 }, [RecAction.startRecording 5]))
    ∧
    (automatic_recording { live := none, elapsed := 2 } 1 [] ["0.mp4"] 5
      = ({ live := none, elapsed := 2 }, []))
    ∧
    (automatic_recording { live := some 5, elapsed := 2 } 1 [] ["0.mp4"] 6
      = ({ live := some 5, elapsed := 3 }, []))
    ∧
    (automatic_recording { live := some 5, elapsed := 7/2 } 1 [] ["0.mp4"] 6
      = ({ live := none, elapsed := 1 }, [RecAction.attachRawStreams 5 ["0.mp4"]])) :=
  ⟨automatic_recording_step_behavior.1 _ 1 _ _ 5 rfl (by simp),
   automatic_recording_step_behavior.2.1 _ 1 _ 5 rfl,
   by
    have h := automatic_recording_step_behavior.2.2.1
      { live := some 5, elapsed := 2 } 5 1 [] ["0.mp4"] 6 rfl (by norm_num)
    norm_num at h
    exact h,
   by
    have h := automatic_recording_step_behavior.2.2.2
      { live := some 5, elapsed := 7/2 } 5 1 [] ["0.mp4"] 6 rfl (by norm_num)
    simpa using h⟩

/-! ## CaptureManager registry: `RtspStreamManager` (src/stream.rs)

`add_stream` (src/stream.rs:281-291) pushes the stream handle into the
registry vector unconditionally — it performs **no** duplicate check and
returns no error (there is no `DuplicateStreamId` type anywhere in the
code).  The duplicate-id guard lives in the caller
`create_streams_from_descriptors` (src/stream.rs:88-105), which
`assert!`s that the id is not yet registered (a panic, not an error)
before inserting the `RtspStreamCreated` marker and calling `add_stream`.
The tokio spawn of the run loop is a concurrency effect outside this
model. -/

/-- `StreamTransport` (src/stream.rs:151-155). -/
inductive StreamTransport
  | tcp
  | udp
deriving DecidableEq, Repr

/-- `StreamDescriptor` (src/stream.rs:158-166). -/
structure StreamDescriptor where
  uri : String
  transport : StreamTransport
  visible : Option Bool
  person_detection : Option Bool
deriving DecidableEq, Repr

/-- The registry-relevant part of `RtspStreamHandle`: its descriptor and
`StreamId` (the image handle, frame slot and command channel play no role
in the registry claims). -/
structure RtspStreamHandle where
  descriptor : StreamDescriptor
  id : Nat
deriving DecidableEq, Repr

/-- `RtspStreamManager::contains` (src/stream.rs:277-279). -/
def streamManagerContains (registry : List RtspStreamHandle) (id : Nat) : Bool :=
  registry.any fun s => s.id == id

/-- `RtspStreamManager::add_stream` (src/stream.rs:281-291): pushes the
handle, with no duplicate check. -/
def add_stream (registry : List RtspStreamHandle) (handle : RtspStreamHandle) :
    List RtspStreamHandle :=
  registry ++ [handle]

/-- `create_streams_from_descriptors` (src/stream.rs:88-105): for each
not-yet-created stream entity, `assert!(!stream_manager.contains(id))`
(modelled as `none` on assertion failure) and then `add_stream`. -/
def create_streams_from_descriptors (registry : List RtspStreamHandle) :
    List RtspStreamHandle → Option (List RtspStreamHandle)
  | [] => some registry
  | h :: rest =>
      if streamManagerContains registry h.id then none
      else create_streams_from_descriptors (add_stream registry h) rest

theorem streamManagerContains_iff (registry : List RtspStreamHandle) (id : Nat) :
    streamManagerContains registry id = true ↔ ∃ s ∈ registry, s.id = id := by
  simp [streamManagerContains]

/-- Two stream descriptors pointing at different cameras, used as concrete
inputs below. -/
def descA : StreamDescriptor :=
  { uri := "rtsp://a", transport := .tcp, visible := none, person_detection := none }

def descB : StreamDescriptor :=
  { uri := "rtsp://b", transport := .udp, visible := none, person_detection := none }

/-- **C9 counterexample.** `add_stream` called with a handle whose id is
already registered does not fail and does not leave the registry
unchanged: it registers the duplicate, after which the registry holds two
handles with the same `StreamId`. -/
theorem add_stream_registers_duplicates :
    streamManagerContains [{ descriptor := descA, id := 0 }] 0 = true ∧
    add_stream [{ descriptor := descA, id := 0 }] { descriptor := descB, id := 0 }
      = [{ descriptor := descA, id := 0 }, { descriptor := descB, id := 0 }] ∧
    add_stream [{ descriptor := descA, id := 0 }] { descriptor := descB, id := 0 }
      ≠ [{ descriptor := descA, id := 0 }] ∧
    ((add_stream [{ descriptor := descA, id := 0 }]
        { descriptor := descB, id := 0 }).filter fun s => s.id == 0).length = 2 := by
  refine ⟨rfl, rfl, by simp [add_stream], rfl⟩

/-- **C9 (amended).** `add_stream` itself performs no duplicate check and
registers unconditionally.  The duplicate-id guard is the `assert!` in
`create_streams_from_descriptors`: a pending stream whose id is already
registered makes ingestion panic before that stream is registered, and
whenever ingestion completes without panicking, the registry still holds
no two handles with the same `StreamId`. -/
theorem create_streams_duplicate_guard :
    (∀ (registry : List RtspStreamHandle) (h : RtspStreamHandle)
        (rest : List RtspStreamHandle),
      streamManagerContains registry h.id = true →
      create_streams_from_descriptors registry (h :: rest) = none)
    ∧
    (∀ (pending registry : List RtspStreamHandle) (registry' : List RtspStreamHandle),
      (registry.map RtspStreamHandle.id).Nodup →
      create_streams_from_descriptors registry pending = some registry' →
      (registry'.map RtspStreamHandle.id).Nodup) := by
  constructor
  · intro registry h rest hc
    simp [create_streams_from_descriptors, hc]
  · intro pending
    induction pending with
    | nil =>
      intro registry registry' hnd hrun
      simp only [create_streams_from_descriptors, Option.some.injEq] at hrun
      exact hrun ▸ hnd
    | cons h rest ih =>
      intro registry registry' hnd hrun
      simp only [create_streams_from_descriptors] at hrun
      by_cases hc : streamManagerContains registry h.id
      · rw [if_pos hc] at hrun; exact absurd hrun (by simp)
      · rw [if_neg hc] at hrun
        refine ih (add_stream registry h) registry' ?_ hrun
        have hfresh : ∀ s ∈ registry, s.id ≠ h.id := by
          intro s hs heq
          exact hc ((streamManagerContains_iff registry h.id).mpr ⟨s, hs, heq⟩)
        simp only [add_stream, List.map_append, List.map_cons, List.map_nil]
        rw [List.nodup_append]
        refine ⟨hnd, List.nodup_singleton _, ?_⟩
        intro a ha hb
        simp only [List.mem_singleton] at hb
        obtain ⟨s, hs, rfl⟩ := List.mem_map.mp ha
        exact hfresh s hs (hb ▸ rfl)

/-- **C9 witness**: ingesting a duplicate id panics; ingesting two fresh
ids yields a registry with distinct ids. -/
theorem create_streams_duplicate_guard_witness :
    create_streams_from_descriptors [{ descriptor := descA, id := 0 }]
      [{ descriptor := descB, id := 0 }] = none ∧
    (([{ descriptor := descA, id := 0 },
       { descriptor := descB, id := 1 }] : List RtspStreamHandle).map
        RtspStreamHandle.id).Nodup :=
  ⟨create_streams_duplicate_guard.1 _ _ [] rfl,
   create_streams_duplicate_guard.2
     [{ descriptor := descA, id := 0 }, { descriptor := descB, id := 1 }] [] _
     (by simp) rfl⟩

/-! ## The annotation pipeline's filesystem model (src/pipeline.rs)

The stage runners and the session constructor interact with the disk
through `std::fs` (`create_dir_all`, `read_dir`, `metadata`, plus writes
performed by `rotate_image` etc.).  The filesystem is modelled explicitly:

* A **name** (`FsName`) is either a bare name or a stem plus extension;
  purely numeric names (stream/session directories like `"7"`, frame stems
  like the `"12"` of `"12.png"`) are represented by `BaseName.num`, all
  other names by `BaseName.str`.  `parse::<usize>()` on a name succeeds
  exactly on `FsName.plain (BaseName.num _)`, the partial inverse of how
  the code itself prints ids into names.
* A **path** is the list of names from the root; `format!("{}/{}", d, n)`
  becomes `d ++ [n]`.
* The **filesystem** is a flat association list from paths to entries
  (file or directory), in creation order.  `read_dir` enumeration order is
  modelled as that creation order (the real OS order is unspecified; it is
  some deterministic order, and every claim below is settled against the
  model's order, with the one claim that depends on a *specific* order —
  C4 — refuted because no sorting happens at all).  File *contents* are
  not modelled: no reload or claim settled here ever reads file contents,
  only names, extensions and file/directory kinds; writes are modelled by
  their write set, and each function's existence checks and panics on
  missing inputs are kept.
-/

/-- A name component: purely numeric (`"7"`) or any other string. -/
inductive BaseName
  | num (n : Nat)
  | str (s : String)
deriving DecidableEq, Repr

/-- A file or directory name: a bare base name (`"frames"`, `"7"`) or a
stem plus extension (`"12.png"`, `"0.mp4"`). -/
inductive FsName
  | plain (b : BaseName)
  | ext (stem : BaseName) (e : String)
deriving DecidableEq, Repr

/-- A path from the filesystem root. -/
abbrev Path := List FsName

/-- A filesystem entry kind. -/
inductive FsEntry
  | file
  | dir
deriving DecidableEq, Repr

/-- The filesystem: paths with their entry kinds, in creation order. -/
abbrev Fs := List (Path × FsEntry)

/-- `name.parse::<usize>()`: only a purely numeric bare name parses. -/
def parseUsize : FsName → Option Nat
  | .plain (.num n) => some n
  | _ => none

/-- `path.extension()`. -/
def extOf : FsName → Option String
  | .plain _ => none
  | .ext _ e => some e

/-- `path.file_stem()` of a name. -/
def fileStem : FsName → Option BaseName
  | .plain b => some b
  | .ext st _ => some st

/-- Look a path up (`std::fs::metadata`-style). -/
def fsFind (fs : Fs) (p : Path) : Option FsEntry :=
  (fs.find? fun e => decide (e.1 = p)).map Prod.snd

/-- The name under which `q` is a direct child of `parent`, if it is one. -/
def childName (parent : Path) (q : Path) : Option FsName :=
  match q.getLast? with
  | none => none
  | some n => if q.dropLast = parent then some n else none

/-- `read_dir`: the direct children of a directory, in creation order. -/
def childEntries (fs : Fs) (p : Path) : List (FsName × FsEntry) :=
  fs.filterMap fun e => (childName p e.1).map fun n => (n, e.2)

/-- Helper for `create_dir_all`: create every missing component of
`comps` below `pre` as a directory, in order; panic (`none`) if a
component exists as a file. -/
def createDirAllFrom : Fs → Path → List FsName → Option Fs
  | fs, _, [] => some fs
  | fs, pre, n :: rest =>
      let q := pre ++ [n]
      match fsFind fs q with
      | some FsEntry.file => none
      | some FsEntry.dir => createDirAllFrom fs q rest
      | none => createDirAllFrom (fs ++ [(q, FsEntry.dir)]) q rest

/-- `std::fs::create_dir_all` (its `.unwrap()` is `none`). -/
def create_dir_all (fs : Fs) (p : Path) : Option Fs :=
  createDirAllFrom fs [] p

/-- Write a file at `p` (creating it at the end of the store, or
overwriting in place). -/
def writeFile (fs : Fs) (p : Path) : Fs :=
  if (fs.find? fun e => decide (e.1 = p)).isSome then
    fs.map fun e => if e.1 = p then (p, FsEntry.file) else e
  else
    fs ++ [(p, FsEntry.file)]

/-! ### Session creation (src/pipeline.rs:115-129, 823-837) -/

/-- `Session` (src/pipeline.rs:109-113). -/
structure Session where
  id : Nat
  directory : Path
deriving DecidableEq, Repr

/-- The numeric ids of the integer-named subdirectories of a directory,
in enumeration order: `entries.filter_map(|e| is_dir(e).then(parse(name).ok()))`. -/
def numericSubdirIds (fs : Fs) (outputDirectory : Path) : List Nat :=
  (childEntries fs outputDirectory).filterMap fun e =>
    match e.2 with
    | FsEntry.dir => parseUsize e.1
    | FsEntry.file => none

/-- `get_next_session_id` (src/pipeline.rs:823-837): `max + 1` over the
integer-named subdirectories, `0` if there are none or the root cannot be
read. -/
def get_next_session_id (fs : Fs) (outputDirectory : Path) : Nat :=
  match fsFind fs outputDirectory with
  | some FsEntry.dir =>
      match (numericSubdirIds fs outputDirectory).max? with
      | some maxId => maxId + 1
      | none => 0
  | _ => 0

/-- `Session::new` (src/pipeline.rs:116-122): choose the next id, join it
to the root, create the directory. -/
def Session.new (fs : Fs) (directory : Path) : Option (Fs × Session) :=
  let id := get_next_session_id fs directory
  let sessionDirectory := directory ++ [FsName.plain (.num id)]
  (create_dir_all fs sessionDirectory).map fun fs' =>
    (fs', { id := id, directory := sessionDirectory })

/-- **C8.** A new pipeline `Session` against a root gets id `max + 1`
where `max` is the largest integer-named subdirectory of the root
(non-numeric entries and plain files are ignored by `numericSubdirIds`);
if the root has no numbered subdirectories or cannot be read, the id is
`0`; the session directory is the root joined with the id. -/
theorem session_new_spec :
    (∀ (fs : Fs) (root : Path) (fs' : Fs) (s : Session),
      Session.new fs root = some (fs', s) →
      s.id = get_next_session_id fs root ∧
      s.directory = root ++ [FsName.plain (.num s.id)])
    ∧
    (∀ (fs : Fs) (root : Path) (m : Nat),
      fsFind fs root = some FsEntry.dir →
      (numericSubdirIds fs root).max? = some m →
      get_next_session_id fs root = m + 1 ∧
      m ∈ numericSubdirIds fs root ∧ ∀ i ∈ numericSubdirIds fs root, i ≤ m)
    ∧
    (∀ (fs : Fs) (root : Path),
      fsFind fs root = some FsEntry.dir →
      numericSubdirIds fs root = [] →
      get_next_session_id fs root = 0)
    ∧
    (∀ (fs : Fs) (root : Path),
      fsFind fs root ≠ some FsEntry.dir →
      get_next_session_id fs root = 0) := by
  refine ⟨?_, ?_, ?_, ?_⟩
  · intro fs root fs' s hnew
    rw [Session.new, Option.map_eq_some'] at hnew
    obtain ⟨fs'', _, heq⟩ := hnew
    cases heq
    exact ⟨rfl, rfl⟩
  · intro fs root m hdir hmax
    refine ⟨by simp [get_next_session_id, hdir, hmax], ?_, ?_⟩
    · exact List.max?_mem (fun a b => max_choice a b) hmax
    · intro i hi
      exact List.max?_le_iff (fun a b c => max_le_iff) hmax |>.mp (le_refl m) i hi
  · intro fs root hdir hnil
    simp [get_next_session_id, hdir, hnil]
  · intro fs root hdir
    cases hfind : fsFind fs root with
    | none => simp [get_next_session_id, hfind]
    | some e =>
      cases e with
      | file => simp [get_next_session_id, hfind]
      | dir => exact absurd hfind hdir

/-- **C8 witness**: a root holding subdirectories `"3"` and `"7"`, a file
named `"9"` and a non-numeric subdirectory `"x"` yields id 8 and session
directory `root/8`; an absent root yields id 0. -/
theorem session_new_spec_witness :
    (Session.new
        [([FsName.plain (.str "capture")], FsEntry.dir),
         ([FsName.plain (.str "capture"), FsName.plain (.num 3)], FsEntry.dir),
         ([FsName.plain (.str "capture"), FsName.plain (.num 7)], FsEntry.dir),
         ([FsName.plain (.str "capture"), FsName.plain (.num 9)], FsEntry.file),
         ([FsName.plain (.str "capture"), FsName.plain (.str "x")], FsEntry.dir)]
        [FsName.plain (.str "capture")]
      |>.map fun r => (r.2.id, r.2.directory))
      = some (8, [FsName.plain (.str "capture"), FsName.plain (.num 8)]) ∧
    get_next_session_id [] [FsName.plain (.str "capture")] = 0 :=
  ⟨by rfl,
   session_new_spec.2.2.2 [] [FsName.plain (.str "capture")] (by decide)⟩

/-! ### Stage output indices and their loaders (src/pipeline.rs) -/

/-- `format!("{}/{stage}", session.directory)`. -/
def stage_dir (sessionDirectory : Path) (stageName : String) : Path :=
  sessionDirectory ++ [FsName.plain (.str stageName)]

/-- The shared shape of `RawFrames`, `RotatedFrames`, `MaskFrames` and
`AlphablendFrames`: `frames: HashMap<StreamId, Vec<String>>` (modelled as
an association list in insertion order — `HashMap` iteration order is
arbitrary, insertion order is the model's choice) plus the stage
directory. -/
structure FrameIndex where
  frames : List (Nat × List Path)
  directory : Path
deriving DecidableEq, Repr

/-- `HashMap::insert`: replace in place or append. -/
def insertFrames (m : List (Nat × List Path)) (k : Nat) (v : List Path) :
    List (Nat × List Path) :=
  if m.any fun e => e.1 == k then
    m.map fun e => if e.1 == k then (k, v) else e
  else m ++ [(k, v)]

/-- The files of one stream subdirectory carrying the stage's artifact
extension, as full paths, in enumeration order
(`read_dir(stream_dir).filter(is_file && extension == wanted).map(path)`). -/
def streamArtifactFiles (fs : Fs) (streamDir : Path) (wanted : String) : List Path :=
  (childEntries fs streamDir).filterMap fun f =>
    match f.2 with
    | FsEntry.file => if extOf f.1 = some wanted then some (streamDir ++ [f.1]) else none
    | FsEntry.dir => none

/-- The scan of the (textually identical) `reload` methods of `RawFrames`
(src/pipeline.rs:588-607), `RotatedFrames` (721-740), `MaskFrames`
(777-796) and `AlphablendFrames` (529-548): enumerate the stage
directory (panicking if it cannot be read), keep its subdirectories,
parse each subdirectory name as a stream id (`.parse::<usize>().unwrap()`
— a panic, hence `none`, on a non-numeric name), and pair it with its
artifact files.  `YoloFrames::reload` (643-669) scans identically with
extension `json` (its per-file json decoding concerns file contents,
which are not modelled and which no claim here touches). -/
def reloadScan (fs : Fs) (directory : Path) (wanted : String) :
    Option (List (Nat × List Path)) :=
  match fsFind fs directory with
  | some FsEntry.dir =>
      ((childEntries fs directory).filter fun e => e.2 == FsEntry.dir).mapM fun e =>
        (parseUsize e.1).map fun sid =>
          (sid, streamArtifactFiles fs (directory ++ [e.1]) wanted)
  | _ => none

/-- `reload` proper: the scan's `for_each(|(sid, frames)| self.frames.insert(sid, frames))`
into the current map. -/
def reloadInto (frames0 : List (Nat × List Path)) (fs : Fs) (directory : Path)
    (wanted : String) : Option (List (Nat × List Path)) :=
  (reloadScan fs directory wanted).map fun scanned =>
    scanned.foldl (fun acc e => insertFrames acc e.1 e.2) frames0

/-- The shared body of every stage's `load_from_session` (`RawFrames`
:573-586, `RotatedFrames` :706-719, `MaskFrames` :762-775, `YoloFrames`
:628-641, `AlphablendFrames` :514-527): build the stage directory path,
unconditionally `create_dir_all` it, then `reload` starting from an empty
index. -/
def stage_load_from_session (stageName : String) (wanted : String) (fs : Fs)
    (sessionDirectory : Path) : Option (Fs × FrameIndex) := do
  let directory := stage_dir sessionDirectory stageName
  let fs' ← create_dir_all fs directory
  let frames ← reloadInto [] fs' directory wanted
  some (fs', { frames := frames, directory := directory })

/-- `RawFrames::exists` / `RotatedFrames::exists` / `MaskFrames::exists` /
`YoloFrames::exists` / `AlphablendFrames::exists`:
`std::fs::metadata(stage directory).is_ok()`. -/
def stage_exists (stageName : String) (fs : Fs) (sessionDirectory : Path) : Bool :=
  (fsFind fs (stage_dir sessionDirectory stageName)).isSome

/-- `RawFrames::load_from_session` (stage directory `frames`, `png`). -/
def RawFrames.load_from_session (fs : Fs) (s : Path) : Option (Fs × FrameIndex) :=
  stage_load_from_session "frames" "png" fs s

/-- `RotatedFrames::load_from_session` (stage directory `rotated_frames`). -/
def RotatedFrames.load_from_session (fs : Fs) (s : Path) : Option (Fs × FrameIndex) :=
  stage_load_from_session "rotated_frames" "png" fs s

/-- `MaskFrames::load_from_session` (stage directory `masks`). -/
def MaskFrames.load_from_session (fs : Fs) (s : Path) : Option (Fs × FrameIndex) :=
  stage_load_from_session "masks" "png" fs s

/-- `YoloFrames::load_from_session` (stage directory `yolo_frames`,
artifact extension `json`). -/
def YoloFrames.load_from_session (fs : Fs) (s : Path) : Option (Fs × FrameIndex) :=
  stage_load_from_session "yolo_frames" "json" fs s

/-- `AlphablendFrames::load_from_session` (stage directory `alphablend`). -/
def AlphablendFrames.load_from_session (fs : Fs) (s : Path) : Option (Fs × FrameIndex) :=
  stage_load_from_session "alphablend" "png" fs s

/-- `find?` over an append scans the left part first. -/
theorem fsFind_append (fs gs : Fs) (q : Path) :
    fsFind (fs ++ gs) q = ((fsFind fs q).orElse fun _ => fsFind gs q) := by
  induction fs with
  | nil => simp [fsFind]
  | cons e t ih =>
    by_cases he : e.1 = q
    · simp [fsFind, List.find?_cons, he]
    · simpa [fsFind, List.find?_cons, he] using ih

theorem fsFind_append_left (fs gs : Fs) (q : Path) (e : FsEntry)
    (h : fsFind fs q = some e) : fsFind (fs ++ gs) q = some e := by
  rw [fsFind_append, h]; rfl

theorem fsFind_append_right (fs gs : Fs) (q : Path)
    (h : fsFind fs q = none) : fsFind (fs ++ gs) q = fsFind gs q := by
  rw [fsFind_append, h]; rfl

/-- `createDirAllFrom` only ever appends directory entries. -/
theorem createDirAllFrom_shape (comps : List FsName) (fs : Fs) (pre : Path) (fs' : Fs)
    (h : createDirAllFrom fs pre comps = some fs') :
    ∃ extra, fs' = fs ++ extra ∧ ∀ e ∈ extra, (∃ k, 0 < k ∧ k ≤ comps.length ∧
      e.1 = pre ++ comps.take k) ∧ e.2 = FsEntry.dir := by
  induction comps generalizing fs pre with
  | nil =>
    simp only [createDirAllFrom, Option.some.injEq] at h
    exact ⟨[], by simp [h.symm]⟩
  | cons n rest ih =>
    simp only [createDirAllFrom] at h
    cases hf : fsFind fs (pre ++ [n]) with
    | none =>
      rw [hf] at h
      obtain ⟨extra, heq, hprop⟩ := ih (fs ++ [(pre ++ [n], FsEntry.dir)]) (pre ++ [n]) h
      refine ⟨(pre ++ [n], FsEntry.dir) :: extra, by simpa using heq, ?_⟩
      intro e he
      rcases List.mem_cons.mp he with rfl | he
      · exact ⟨⟨1, by omega, by simp, by simp⟩, rfl⟩
      · obtain ⟨⟨k, hk0, hk, hp⟩, hd⟩ := hprop e he
        refine ⟨⟨k + 1, by omega, by simp; omega, ?_⟩, hd⟩
        rw [hp]
        simp [List.take_cons, List.append_assoc]
    | some entry =>
      cases entry with
      | file => rw [hf] at h; exact absurd h (by simp)
      | dir =>
        rw [hf] at h
        obtain ⟨extra, heq, hprop⟩ := ih fs (pre ++ [n]) h
        refine ⟨extra, heq, ?_⟩
        intro e he
        obtain ⟨⟨k, hk0, hk, hp⟩, hd⟩ := hprop e he
        refine ⟨⟨k + 1, by omega, by simp; omega, ?_⟩, hd⟩
        rw [hp]
        simp [List.take_cons, List.append_assoc]

/-- After a successful `createDirAllFrom`, every prefix of the walked
chain exists as a directory. -/
theorem createDirAllFrom_chain (comps : List FsName) (fs : Fs) (pre : Path) (fs' : Fs)
    (h : createDirAllFrom fs pre comps = some fs') :
    ∀ k, 0 < k → k ≤ comps.length → fsFind fs' (pre ++ comps.take k) = some FsEntry.dir := by
  induction comps generalizing fs pre with
  | nil => intro k hk0 hk; simp at hk; omega
  | cons n rest ih =>
    intro k hk0 hk
    simp only [createDirAllFrom] at h
    have step : ∀ fs₁, fsFind fs₁ (pre ++ [n]) = some FsEntry.dir →
        createDirAllFrom fs₁ (pre ++ [n]) rest = some fs' →
        fsFind fs' (pre ++ (n :: rest).take k) = some FsEntry.dir := by
      intro fs₁ hdir hrun
      cases k with
      | zero => omega
      | succ j =>
        cases Nat.eq_zero_or_pos j with
        | inl hj =>
          subst hj
          obtain ⟨extra, heq, -⟩ := createDirAllFrom_shape rest fs₁ (pre ++ [n]) fs' hrun
          rw [heq]
          simpa using fsFind_append_left _ _ _ _ hdir
        | inr hj =>
          have := ih fs₁ (pre ++ [n]) hrun j hj (by simpa using hk)
          simpa [List.take_cons, List.append_assoc] using this
    cases hf : fsFind fs (pre ++ [n]) with
    | none =>
      rw [hf] at h
      refine step (fs ++ [(pre ++ [n], FsEntry.dir)]) ?_ h
      rw [fsFind_append_right _ _ _ hf]
      simp [fsFind]
    | some entry =>
      cases entry with
      | file => rw [hf] at h; exact absurd h (by simp)
      | dir => rw [hf] at h; exact step fs hf h

/-- **C10.** Every stage's `load_from_session` unconditionally creates the
stage's output directory, so afterwards the stage's `exists` check is
`true` even when zero artifact files have been written (and therefore a
run that fails after loading leaves the stage marked as existing for the
next run, which will then take the resumed branch). -/
theorem load_from_session_marks_stage_existing
    (stageName wanted : String) (fs : Fs) (sessionDirectory : Path) (fs' : Fs)
    (idx : FrameIndex)
    (h : stage_load_from_session stageName wanted fs sessionDirectory = some (fs', idx)) :
    stage_exists stageName fs' sessionDirectory = true := by
  simp only [stage_load_from_session, bind, Option.bind_eq_some] at h
  obtain ⟨fs₁, hcreate, h⟩ := h
  obtain ⟨frames, hreload, h⟩ := h
  simp only [Option.some.injEq, Prod.mk.injEq] at h
  obtain ⟨rfl, rfl⟩ := h
  have hchain := createDirAllFrom_chain (stage_dir sessionDirectory stageName) fs [] fs₁
    hcreate (stage_dir sessionDirectory stageName).length (by simp [stage_dir]) (le_refl _)
  simp only [List.take_length, List.nil_append] at hchain
  simp [stage_exists, hchain]

/-- **C10 witness**: loading the mask stage of a fresh session directory
creates `masks` (the exists check flips to `true`) while the loaded index
holds zero artifacts. -/
theorem load_from_session_marks_stage_existing_witness :
    stage_exists "masks"
      [([FsName.plain (.str "capture")], FsEntry.dir),
       ([FsName.plain (.str "capture"), FsName.plain (.num 0)], FsEntry.dir),
       ([FsName.plain (.str "capture"), FsName.plain (.num 0), FsName.plain (.str "masks")],
        FsEntry.dir)]
      [FsName.plain (.str "capture"), FsName.plain (.num 0)] = true ∧
    MaskFrames.load_from_session
      [([FsName.plain (.str "capture")], FsEntry.dir),
       ([FsName.plain (.str "capture"), FsName.plain (.num 0)], FsEntry.dir)]
      [FsName.plain (.str "capture"), FsName.plain (.num 0)]
      = some ([([FsName.plain (.str "capture")], FsEntry.dir),
               ([FsName.plain (.str "capture"), FsName.plain (.num 0)], FsEntry.dir),
               ([FsName.plain (.str "capture"), FsName.plain (.num 0),
                 FsName.plain (.str "masks")], FsEntry.dir)],
              { frames := [],
                directory := [FsName.plain (.str "capture"), FsName.plain (.num 0),
                              FsName.plain (.str "masks")] }) :=
  ⟨load_from_session_marks_stage_existing "masks" "png"
      [([FsName.plain (.str "capture")], FsEntry.dir),
       ([FsName.plain (.str "capture"), FsName.plain (.num 0)], FsEntry.dir)]
      [FsName.plain (.str "capture"), FsName.plain (.num 0)]
      [([FsName.plain (.str "capture")], FsEntry.dir),
       ([FsName.plain (.str "capture"), FsName.plain (.num 0)], FsEntry.dir),
       ([FsName.plain (.str "capture"), FsName.plain (.num 0), FsName.plain (.str "masks")],
        FsEntry.dir)]
      { frames := [],
        directory := [FsName.plain (.str "capture"), FsName.plain (.num 0),
                      FsName.plain (.str "masks")] }
      (by decide),
   by decide⟩

/-! ### Frame ordering within a camera (C4) -/

/-- The numeric frame index embedded in an artifact path's filename
(`".../12.png"` ↦ `12`). -/
def frameIdxOf (p : Path) : Option Nat :=
  (p.getLast?.bind fileStem).bind fun b =>
    match b with
    | BaseName.num k => some k
    | BaseName.str _ => none

/-- The claimed ordering invariant: the artifact paths are ascending in
their embedded numeric frame index. -/
def sortedByFrameIdx (frames : List Path) : Prop :=
  List.Pairwise (· ≤ ·) (frames.filterMap frameIdxOf)

/-- A session whose `frames/0` stream directory enumerates `2.png` before
`1.png` (a perfectly legal directory state: `read_dir` order is not the
numeric order). -/
def fsUnsorted : Fs :=
  [([FsName.plain (.str "s")], FsEntry.dir),
   ([FsName.plain (.str "s"), FsName.plain (.str "frames")], FsEntry.dir),
   ([FsName.plain (.str "s"), FsName.plain (.str "frames"), FsName.plain (.num 0)],
    FsEntry.dir),
   ([FsName.plain (.str "s"), FsName.plain (.str "frames"), FsName.plain (.num 0),
     FsName.ext (.num 2) "png"], FsEntry.file),
   ([FsName.plain (.str "s"), FsName.plain (.str "frames"), FsName.plain (.num 0),
     FsName.ext (.num 1) "png"], FsEntry.file)]

/-- The same session with the two frame files enumerated in ascending
order. -/
def fsSorted : Fs :=
  [([FsName.plain (.str "s")], FsEntry.dir),
   ([FsName.plain (.str "s"), FsName.plain (.str "frames")], FsEntry.dir),
   ([FsName.plain (.str "s"), FsName.plain (.str "frames"), FsName.plain (.num 0)],
    FsEntry.dir),
   ([FsName.plain (.str "s"), FsName.plain (.str "frames"), FsName.plain (.num 0),
     FsName.ext (.num 1) "png"], FsEntry.file),
   ([FsName.plain (.str "s"), FsName.plain (.str "frames"), FsName.plain (.num 0),
     FsName.ext (.num 2) "png"], FsEntry.file)]

/-- **C4 counterexample.** No `reload` sorts: loading `fsUnsorted` stores
stream 0's artifact paths with embedded indices `[2, 1]` — not ascending.
The stored sequence is the raw directory-enumeration order. -/
theorem reload_order_counterexample :
    ((RawFrames.load_from_session fsUnsorted [FsName.plain (.str "s")]).map
        fun r => r.2.frames.map fun e => (e.1, e.2.filterMap frameIdxOf))
      = some [(0, [2, 1])] ∧
    ¬ sortedByFrameIdx
        [[FsName.plain (.str "s"), FsName.plain (.str "frames"), FsName.plain (.num 0),
          FsName.ext (.num 2) "png"],
         [FsName.plain (.str "s"), FsName.plain (.str "frames"), FsName.plain (.num 0),
          FsName.ext (.num 1) "png"]] :=
  ⟨by decide, by unfold sortedByFrameIdx; decide⟩

theorem insertFrames_mem (m : List (Nat × List Path)) (k : Nat) (v : List Path)
    (a : Nat × List Path) (ha : a ∈ insertFrames m k v) : a ∈ m ∨ a = (k, v) := by
  unfold insertFrames at ha
  split at ha
  · obtain ⟨e, he, hae⟩ := List.mem_map.mp ha
    by_cases hek : e.1 == k
    · rw [if_pos hek] at hae; exact Or.inr hae.symm
    · rw [if_neg hek] at hae; exact Or.inl (hae ▸ he)
  · rcases List.mem_append.mp ha with h | h
    · exact Or.inl h
    · simp only [List.mem_singleton] at h
      exact Or.inr h

theorem foldl_insertFrames_mem (scanned : List (Nat × List Path)) :
    ∀ (acc : List (Nat × List Path)) (a : Nat × List Path),
      a ∈ scanned.foldl (fun acc e => insertFrames acc e.1 e.2) acc →
      a ∈ acc ∨ a ∈ scanned := by
  induction scanned with
  | nil => intro acc a ha; exact Or.inl ha
  | cons e t ih =>
    intro acc a ha
    rcases ih _ a ha with h | h
    · rcases insertFrames_mem _ _ _ _ h with h' | h'
      · exact Or.inl h'
      · right; rw [h']; simp
    · exact Or.inr (List.mem_cons_of_mem _ h)

theorem mapM_option_mem {α β : Type} (f : α → Option β) :
    ∀ (l : List α) (r : List β), l.mapM f = some r → ∀ b ∈ r, ∃ a ∈ l, f a = some b := by
  intro l
  induction l with
  | nil =>
    intro r hr b hb
    simp only [List.mapM_nil, pure, Option.some.injEq] at hr
    subst hr
    exact absurd hb (List.not_mem_nil _)
  | cons a t ih =>
    intro r hr b hb
    rw [List.mapM_cons] at hr
    simp only [bind, Option.bind_eq_some, pure, Option.some.injEq] at hr
    obtain ⟨b0, hfa, bs, hbs, rfl⟩ := hr
    rcases List.mem_cons.mp hb with rfl | hb
    · exact ⟨a, List.mem_cons_self _ _, hfa⟩
    · obtain ⟨a', ha', hfa'⟩ := ih bs hbs b hb
      exact ⟨a', List.mem_cons_of_mem _ ha', hfa'⟩

/-- Every entry of a reloaded index comes from the scan. -/
theorem reloadInto_nil_mem (fs : Fs) (directory : Path) (wanted : String)
    (r : List (Nat × List Path)) (hr : reloadInto [] fs directory wanted = some r)
    (e : Nat × List Path) (he : e ∈ r) :
    ∃ name, (name, FsEntry.dir) ∈ childEntries fs directory ∧
      parseUsize name = some e.1 ∧
      e.2 = streamArtifactFiles fs (directory ++ [name]) wanted := by
  simp only [reloadInto, Option.map_eq_some'] at hr
  obtain ⟨scanned, hscan, rfl⟩ := hr
  rcases foldl_insertFrames_mem scanned [] e he with h | h
  · exact absurd h (List.not_mem_nil _)
  · simp only [reloadScan] at hscan
    cases hfind : fsFind fs directory with
    | none => rw [hfind] at hscan; exact absurd hscan (by simp)
    | some entry =>
      cases entry with
      | file => rw [hfind] at hscan; exact absurd hscan (by simp)
      | dir =>
        rw [hfind] at hscan
        obtain ⟨a, ha, hfa⟩ := mapM_option_mem _ _ _ hscan e h
        have hmem := List.mem_filter.mp ha
        simp only [Option.map_eq_some'] at hfa
        obtain ⟨sid, hparse, heq⟩ := hfa
        refine ⟨a.1, ?_, ?_, ?_⟩
        · have : a.2 = FsEntry.dir := by
            have := hmem.2
            simpa using this
          rw [← this]
          exact hmem.1
        · rw [← heq]; exact hparse
        · rw [← heq]

/-- **C4 (amended).** No stage `reload` sorts by frame index: the
sequence of artifact paths stored for a camera is exactly that camera's
artifact files in directory-enumeration order (paired with the camera id
parsed from the subdirectory name); consequently the stored sequence is
ascending in the embedded numeric frame index exactly when the
enumeration order is — and not otherwise, per the counterexample. -/
theorem reload_enumeration_order :
    (∀ (fs : Fs) (directory : Path) (wanted : String) (r : List (Nat × List Path)),
      reloadInto [] fs directory wanted = some r →
      ∀ e ∈ r, ∃ name, (name, FsEntry.dir) ∈ childEntries fs directory ∧
        parseUsize name = some e.1 ∧
        e.2 = streamArtifactFiles fs (directory ++ [name]) wanted)
    ∧
    (∀ (fs : Fs) (directory : Path) (wanted : String) (r : List (Nat × List Path)),
      reloadInto [] fs directory wanted = some r →
      (∀ name sid, (name, FsEntry.dir) ∈ childEntries fs directory →
        parseUsize name = some sid →
        sortedByFrameIdx (streamArtifactFiles fs (directory ++ [name]) wanted)) →
      ∀ e ∈ r, sortedByFrameIdx e.2) := by
  refine ⟨reloadInto_nil_mem, ?_⟩
  intro fs directory wanted r hr hsorted e he
  obtain ⟨name, hmem, hparse, heq⟩ := reloadInto_nil_mem fs directory wanted r hr e he
  rw [heq]
  exact hsorted name e.1 hmem hparse

/-- **C4 witness**: on `fsSorted` (files enumerated in ascending order)
the reloaded index for camera 0 is exactly the enumeration, and it is
ascending. -/
theorem reload_enumeration_order_witness :
    (∃ name,
      (name, FsEntry.dir) ∈ childEntries fsSorted
        [FsName.plain (.str "s"), FsName.plain (.str "frames")] ∧
      parseUsize name = some 0 ∧
      [[FsName.plain (.str "s"), FsName.plain (.str "frames"), FsName.plain (.num 0),
        FsName.ext (.num 1) "png"],
       [FsName.plain (.str "s"), FsName.plain (.str "frames"), FsName.plain (.num 0),
        FsName.ext (.num 2) "png"]]
        = streamArtifactFiles fsSorted
            ([FsName.plain (.str "s"), FsName.plain (.str "frames")] ++ [name]) "png")
    ∧
    (∀ e ∈ ([(0,
        [[FsName.plain (.str "s"), FsName.plain (.str "frames"), FsName.plain (.num 0),
          FsName.ext (.num 1) "png"],
         [FsName.plain (.str "s"), FsName.plain (.str "frames"), FsName.plain (.num 0),
          FsName.ext (.num 2) "png"]])] : List (Nat × List Path)),
      sortedByFrameIdx e.2) :=
  ⟨reload_enumeration_order.1 fsSorted
      [FsName.plain (.str "s"), FsName.plain (.str "frames")] "png"
      [(0,
        [[FsName.plain (.str "s"), FsName.plain (.str "frames"), FsName.plain (.num 0),
          FsName.ext (.num 1) "png"],
         [FsName.plain (.str "s"), FsName.plain (.str "frames"), FsName.plain (.num 0),
          FsName.ext (.num 2) "png"]])] (by decide)
      (0,
        [[FsName.plain (.str "s"), FsName.plain (.str "frames"), FsName.plain (.num 0),
          FsName.ext (.num 1) "png"],
         [FsName.plain (.str "s"), FsName.plain (.str "frames"), FsName.plain (.num 0),
          FsName.ext (.num 2) "png"]]) (by decide),
   reload_enumeration_order.2 fsSorted
      [FsName.plain (.str "s"), FsName.plain (.str "frames")] "png"
      [(0,
        [[FsName.plain (.str "s"), FsName.plain (.str "frames"), FsName.plain (.num 0),
          FsName.ext (.num 1) "png"],
         [FsName.plain (.str "s"), FsName.plain (.str "frames"), FsName.plain (.num 0),
          FsName.ext (.num 2) "png"]])] (by decide)
      (by
        intro name sid hmem hparse
        have hce : childEntries fsSorted
            [FsName.plain (.str "s"), FsName.plain (.str "frames")]
            = [(FsName.plain (.num 0), FsEntry.dir)] := by decide
        rw [hce] at hmem
        simp only [List.mem_singleton, Prod.mk.injEq] at hmem
        rw [hmem.1]
        unfold sortedByFrameIdx
        decide)⟩

/-! ### The RotatedFrames stage runner: `generate_rotated_frames`
(src/pipeline.rs:210-273) -/

/-- `rotate_image` (src/pipeline.rs:840-871): rotation by exactly 0° is a
file copy, any other angle opens, rotates and saves the image.  Both
branches require the input to exist as a file (`fs::copy` fails,
`image::open(..).unwrap()` panics otherwise — `none` here) and write the
output file.  Pixel contents are not modelled, so the two branches differ
only in the real pixel data; the branch structure is kept. -/
def rotate_image (fs : Fs) (image_path output_path : Path) (angle : ℚ) : Option Fs :=
  if angle = 0 then
    match fsFind fs image_path with
    | some FsEntry.file => some (writeFile fs output_path)
    | _ => none
  else
    match fsFind fs image_path with
    | some FsEntry.file => some (writeFile fs output_path)
    | _ => none

/-- `path.file_stem()` of a full path: the stem of its last component. -/
def stemOf (frame : Path) : Option BaseName :=
  frame.getLast?.bind fileStem

/-- `rotations[stream_id]` — `HashMap` indexing, which panics when the
id is absent. -/
def lookupRot (rotations : List (Nat × ℚ)) (sid : Nat) : Option ℚ :=
  (rotations.find? fun e => e.1 == sid).map Prod.snd

/-- The per-frame loop of `generate_rotated_frames` (lines 249-262): for
each input frame, in order, take its filename stem, rotate it into
`output_directory/{stem}.png`, and collect the output path. -/
def rotateFrames (rotations : List (Nat × ℚ)) (sid : Nat) (output_directory : Path) :
    Fs → List Path → Option (Fs × List Path)
  | fs, [] => some (fs, [])
  | fs, frame :: rest => do
      let stem ← stemOf frame
      let angle ← lookupRot rotations sid
      let output_path := output_directory ++ [FsName.ext stem "png"]
      let fs1 ← rotate_image fs frame output_path angle
      let (fs2, outs) ← rotateFrames rotations sid output_directory fs1 rest
      some (fs2, output_path :: outs)

/-- The per-stream loop (lines 244-265): create the stream's output
directory, rotate all of its frames, insert the collected paths into the
index. -/
def rotateStreams (rotations : List (Nat × ℚ)) (rotatedDirectory : Path) :
    Fs → List (Nat × List Path) → List (Nat × List Path) →
    Option (Fs × List (Nat × List Path))
  | fs, acc, [] => some (fs, acc)
  | fs, acc, (sid, frames) :: rest => do
      let output_directory := rotatedDirectory ++ [FsName.plain (.num sid)]
      let fs1 ← create_dir_all fs output_directory
      let (fs2, outs) ← rotateFrames rotations sid output_directory fs1 frames
      rotateStreams rotations rotatedDirectory fs2 (insertFrames acc sid outs) rest

/-- `generate_rotated_frames` for one session entity whose
`config.rotate_raw_frames` is set (src/pipeline.rs:210-273): compute
`run_node = !RotatedFrames::exists(session)`, load (creating the stage
directory), and on a fresh run build the per-stream rotation table from
the descriptors (`descriptor.rotation.unwrap_or_default()`, ids by
enumeration order) and compute every camera's rotated frames. -/
def generate_rotated_frames (descriptors : List (Option ℚ)) (fs : Fs)
    (sessionDirectory : Path) (rawFrames : List (Nat × List Path)) :
    Option (Fs × FrameIndex) := do
  let run_node := ! stage_exists "rotated_frames" fs sessionDirectory
  let (fs1, rotated) ← RotatedFrames.load_from_session fs sessionDirectory
  if run_node then
    let rotations := descriptors.enum.map fun e => (e.1, e.2.getD 0)
    let (fs2, frames2) ← rotateStreams rotations rotated.directory fs1
      rotated.frames rawFrames
    some (fs2, { frames := frames2, directory := rotated.directory })
  else
    some (fs1, rotated)

/-! Auxiliary filesystem lemmas for the idempotent-resume proof. -/

theorem fsFind_eq_none_iff (fs : Fs) (q : Path) :
    fsFind fs q = none ↔ ∀ e ∈ fs, e.1 ≠ q := by
  simp [fsFind, List.find?_eq_none]

theorem childEntries_append (fs gs : Fs) (p : Path) :
    childEntries (fs ++ gs) p = childEntries fs p ++ childEntries gs p := by
  simp [childEntries, List.filterMap_append]

theorem childName_concat (p : Path) (n : FsName) : childName p (p ++ [n]) = some n := by
  simp [childName, List.getLast?_concat, List.dropLast_concat]

theorem childName_eq_some (p q : Path) (n : FsName) (h : childName p q = some n) :
    q = p ++ [n] := by
  unfold childName at h
  cases hq : q.getLast? with
  | none => rw [hq] at h; exact absurd h (by simp)
  | some m =>
    rw [hq] at h
    dsimp only at h
    by_cases hd : q.dropLast = p
    · rw [if_pos hd] at h
      obtain rfl := (Option.some.injEq _ _).mp h
      have hne : q ≠ [] := by
        intro hnil
        rw [hnil] at hq
        exact absurd hq (by simp)
      have hlast := List.getLast?_eq_getLast q hne
      rw [hq] at hlast
      obtain rfl := (Option.some.injEq _ _).mp hlast.symm
      rw [← hd, List.dropLast_append_getLast hne]
    · rw [if_neg hd] at h
      exact absurd h (by simp)

theorem same_length_prefix {a b c : Path} (ha : a <+: c) (hb : b <+: c)
    (hl : a.length = b.length) : a = b := by
  rw [List.prefix_iff_eq_take.mp ha, List.prefix_iff_eq_take.mp hb, hl]

theorem concat_ne_self (p : Path) (n : FsName) : p ++ [n] ≠ p := by
  intro h
  simpa using congrArg List.length h

theorem writeFile_fresh (fs : Fs) (p : Path) (h : ∀ e ∈ fs, e.1 ≠ p) :
    writeFile fs p = fs ++ [(p, FsEntry.file)] := by
  unfold writeFile
  have hfind : fs.find? (fun e => decide (e.1 = p)) = none :=
    List.find?_eq_none.mpr (by intro e he; simpa using h e he)
  rw [if_neg (by simp [hfind])]

theorem createDirAllFrom_noop (comps : List FsName) : ∀ (fs : Fs) (pre : Path),
    (∀ k, 0 < k → k ≤ comps.length → fsFind fs (pre ++ comps.take k) = some FsEntry.dir) →
    createDirAllFrom fs pre comps = some fs := by
  induction comps with
  | nil => intro fs pre _; rfl
  | cons n rest ih =>
    intro fs pre h
    have h1 : fsFind fs (pre ++ [n]) = some FsEntry.dir := by
      have := h 1 (by omega) (by simp)
      simpa using this
    simp only [createDirAllFrom, h1]
    apply ih
    intro k hk0 hk
    have := h (k + 1) (by omega) (by simp; omega)
    simpa [List.take_succ_cons, List.append_assoc] using this

theorem createDirAllFrom_extend (comps : List FsName) : ∀ (fs : Fs) (pre : Path) (n : FsName),
    (∀ k, 0 < k → k ≤ comps.length → fsFind fs (pre ++ comps.take k) = some FsEntry.dir) →
    fsFind fs (pre ++ comps ++ [n]) = none →
    createDirAllFrom fs pre (comps ++ [n])
      = some (fs ++ [(pre ++ comps ++ [n], FsEntry.dir)]) := by
  induction comps with
  | nil =>
    intro fs pre n hchain habs
    simp only [List.nil_append, List.append_nil] at habs ⊢
    simp only [createDirAllFrom]
    rw [habs]
  | cons c rest ih =>
    intro fs pre n hchain habs
    have h1 : fsFind fs (pre ++ [c]) = some FsEntry.dir := by
      have := hchain 1 (by omega) (by simp)
      simpa using this
    simp only [List.cons_append, createDirAllFrom, h1]
    have hch : ∀ k, 0 < k → k ≤ rest.length →
        fsFind fs ((pre ++ [c]) ++ rest.take k) = some FsEntry.dir := by
      intro k hk0 hk
      have := hchain (k + 1) (by omega) (by simp; omega)
      simpa [List.take_succ_cons, List.append_assoc] using this
    have habs' : fsFind fs ((pre ++ [c]) ++ rest ++ [n]) = none := by
      simpa [List.append_assoc] using habs
    have := ih fs (pre ++ [c]) n hch habs'
    exact this.trans (by simp [List.append_assoc])

theorem rotate_image_eq (fs : Fs) (ip op : Path) (angle : ℚ) (fs' : Fs)
    (h : rotate_image fs ip op angle = some fs') : fs' = writeFile fs op := by
  unfold rotate_image at h
  split at h <;>
  · cases hf : fsFind fs ip with
    | none => rw [hf] at h; exact absurd h (by simp)
    | some e =>
      cases e with
      | file => rw [hf] at h; exact ((Option.some.injEq _ _).mp h).symm
      | dir => rw [hf] at h; exact absurd h (by simp)

theorem mapM_option_congr {α β : Type} (f g : α → Option β) :
    ∀ (l : List α), (∀ a ∈ l, f a = g a) → l.mapM f = l.mapM g := by
  intro l
  induction l with
  | nil => intro _; rfl
  | cons a t ih =>
    intro h
    rw [List.mapM_cons, List.mapM_cons, h a (List.mem_cons_self _ _),
      ih fun b hb => h b (List.mem_cons_of_mem _ hb)]

theorem mapM_option_eq_map {α β : Type} (f : α → Option β) :
    ∀ (l : List α) (r : List β), l.mapM f = some r → l.map f = r.map some := by
  intro l
  induction l with
  | nil =>
    intro r h
    simp only [List.mapM_nil, pure, Option.some.injEq] at h
    rw [← h]
    rfl
  | cons a t ih =>
    intro r h
    rw [List.mapM_cons] at h
    simp only [bind, Option.bind_eq_some, pure, Option.some.injEq] at h
    obtain ⟨b, hb, bs, hbs, rfl⟩ := h
    simp [hb, ih bs hbs]

theorem insertFrames_fresh (m : List (Nat × List Path)) (k : Nat) (v : List Path)
    (h : ∀ a ∈ m, a.1 ≠ k) : insertFrames m k v = m ++ [(k, v)] := by
  unfold insertFrames
  rw [if_neg]
  simp only [List.any_eq_true, beq_iff_eq, not_exists]
  intro a
  intro ⟨ha, hak⟩
  exact h a ha hak

/-- A successful `rotateFrames` pass determines the stems, produces the
output paths `output_directory/{stem}.png` in input order, and — when
those outputs are fresh with distinct names — appends exactly the output
files to the filesystem. -/
theorem rotateFrames_shape (rotations : List (Nat × ℚ)) (sid : Nat) (outDir : Path) :
    ∀ (frames : List Path) (fs fs' : Fs) (outs : List Path),
    rotateFrames rotations sid outDir fs frames = some (fs', outs) →
    ∃ stems, frames.mapM stemOf = some stems ∧
      outs = stems.map (fun st => outDir ++ [FsName.ext st "png"]) ∧
      (stems.Nodup →
       (∀ st ∈ stems, ∀ e ∈ fs, e.1 ≠ outDir ++ [FsName.ext st "png"]) →
       fs' = fs ++ outs.map fun p => (p, FsEntry.file)) := by
  intro frames
  induction frames with
  | nil =>
    intro fs fs' outs h
    simp only [rotateFrames, Option.some.injEq, Prod.mk.injEq] at h
    obtain ⟨rfl, rfl⟩ := h
    exact ⟨[], rfl, rfl, fun _ _ => by simp⟩
  | cons frame rest ih =>
    intro fs fs' outs h
    simp only [rotateFrames, bind, Option.bind_eq_some] at h
    obtain ⟨st, hst, h⟩ := h
    obtain ⟨angle, hangle, h⟩ := h
    obtain ⟨fsA, hrot, h⟩ := h
    obtain ⟨⟨fsB, outsB⟩, hrec, h⟩ := h
    simp only [Option.some.injEq, Prod.mk.injEq] at h
    obtain ⟨rfl, rfl⟩ := h
    obtain ⟨stems, hstems, houts, hshape⟩ := ih fsA fsB outsB hrec
    refine ⟨st :: stems, ?_, by simp [houts], ?_⟩
    · rw [List.mapM_cons]
      simp only [bind, Option.bind_eq_some, pure]
      exact ⟨st, hst, stems, hstems, rfl⟩
    · intro hnodup hfresh
      have hout_fresh : ∀ e ∈ fs, e.1 ≠ outDir ++ [FsName.ext st "png"] :=
        fun e he => hfresh st (List.mem_cons_self _ _) e he
      have hfsA : fsA = fs ++ [(outDir ++ [FsName.ext st "png"], FsEntry.file)] := by
        rw [rotate_image_eq _ _ _ _ _ hrot, writeFile_fresh fs _ hout_fresh]
      have hnd := List.nodup_cons.mp hnodup
      have hrec_fresh : ∀ st' ∈ stems, ∀ e ∈ fsA,
          e.1 ≠ outDir ++ [FsName.ext st' "png"] := by
        intro st' hst' e he
        rw [hfsA] at he
        rcases List.mem_append.mp he with he | he
        · exact hfresh st' (List.mem_cons_of_mem _ hst') e he
        · simp only [List.mem_singleton] at he
          subst he
          intro hcontra
          simp only [List.append_cancel_left_eq, List.cons.injEq, FsName.ext.injEq] at hcontra
          exact hnd.1 (hcontra.1.1 ▸ hst')
      have hB := hshape hnd.2 hrec_fresh
      rw [hB, hfsA]
      simp [List.append_assoc]

theorem childName_eq_none (p q : Path) (h : q.length ≠ p.length + 1) :
    childName p q = none := by
  cases hc : childName p q with
  | none => rfl
  | some n =>
    have := childName_eq_some _ _ _ hc
    rw [this] at h
    simp at h

theorem filterMap_eq_map_of {α β : Type} (f : α → Option β) (g : α → β) :
    ∀ (l : List α), (∀ a ∈ l, f a = some (g a)) → l.filterMap f = l.map g := by
  intro l
  induction l with
  | nil => intro _; rfl
  | cons a t ih =>
    intro h
    rw [List.filterMap_cons, h a (List.mem_cons_self _ _)]
    show g a :: t.filterMap f = g a :: t.map g
    rw [ih fun b hb => h b (List.mem_cons_of_mem _ hb)]

theorem childName_concat_ne (p q : Path) (n : FsName) (h : q ≠ p) :
    childName p (q ++ [n]) = none := by
  unfold childName
  rw [List.getLast?_concat]
  dsimp only
  rw [List.dropLast_concat, if_neg h]

theorem childEntries_eq_nil (fs : Fs) (q : Path)
    (h : ∀ e ∈ fs, ¬ (q <+: e.1)) : childEntries fs q = [] := by
  rw [childEntries, List.filterMap_eq_nil_iff]
  intro e he
  cases hc : childName q e.1 with
  | none => rfl
  | some n =>
    exact absurd ⟨[n], (childName_eq_some _ _ _ hc).symm⟩ (h e he)

theorem streamArtifactFiles_append (fs gs : Fs) (q : Path) (w : String) :
    streamArtifactFiles (fs ++ gs) q w
      = streamArtifactFiles fs q w ++ streamArtifactFiles gs q w := by
  simp [streamArtifactFiles, childEntries_append, List.filterMap_append]

/-- Membership in `childEntries` comes from an underlying store entry. -/
theorem childEntries_mem (fs : Fs) (p : Path) (e : FsName × FsEntry)
    (h : e ∈ childEntries fs p) : (p ++ [e.1], e.2) ∈ fs := by
  simp only [childEntries, List.mem_filterMap] at h
  obtain ⟨orig, horig, hmap⟩ := h
  simp only [Option.map_eq_some'] at hmap
  obtain ⟨n, hname, heq⟩ := hmap
  have := childName_eq_some _ _ _ hname
  rw [← heq]
  simpa [← this] using horig

/-- The heart of idempotent resume: a successful compute pass over fresh
stream directories preserves the stage-directory chain and leaves a
filesystem whose rescan is exactly the index it built. -/
theorem rotateStreams_resume (rotations : List (Nat × ℚ)) (D : Path) :
    ∀ (streams : List (Nat × List Path)) (fs : Fs) (acc : List (Nat × List Path))
      (fs' : Fs) (acc' : List (Nat × List Path)),
    rotateStreams rotations D fs acc streams = some (fs', acc') →
    (∀ k, 0 < k → k ≤ D.length → fsFind fs (D.take k) = some FsEntry.dir) →
    fsFind fs D = some FsEntry.dir →
    reloadInto [] fs D "png" = some acc →
    (∀ s ∈ streams, ∀ a ∈ acc, a.1 ≠ s.1) →
    (streams.map Prod.fst).Nodup →
    (∀ s ∈ streams, (s.2.map stemOf).Nodup) →
    (∀ s ∈ streams, ∀ e ∈ fs, ¬ ((D ++ [FsName.plain (.num s.1)]) <+: e.1)) →
    ((∀ k, 0 < k → k ≤ D.length → fsFind fs' (D.take k) = some FsEntry.dir) ∧
     fsFind fs' D = some FsEntry.dir ∧
     reloadInto [] fs' D "png" = some acc') := by
  intro streams
  induction streams with
  | nil =>
    intro fs acc fs' acc' hrun hchain hD hscan _ _ _ _
    simp only [rotateStreams, Option.some.injEq, Prod.mk.injEq] at hrun
    obtain ⟨rfl, rfl⟩ := hrun
    exact ⟨hchain, hD, hscan⟩
  | cons s rest ih =>
    obtain ⟨sid, frames⟩ := s
    intro fs acc fs' acc' hrun hchain hD hscan hkeys hsids hstems hfresh
    simp only [rotateStreams, bind, Option.bind_eq_some] at hrun
    obtain ⟨fsA, hcreate, hrun⟩ := hrun
    obtain ⟨⟨fsB, outs⟩, hrot, hrun⟩ := hrun
    set sd := D ++ [FsName.plain (.num sid)] with hsd
    have hfresh_self : ∀ e ∈ fs, ¬ (sd <+: e.1) :=
      fun e he => hfresh (sid, frames) (List.mem_cons_self _ _) e he
    have habs : fsFind fs sd = none := by
      rw [fsFind_eq_none_iff]
      intro e he heq
      exact hfresh_self e he (heq ▸ List.prefix_refl _)
    have hfsA : fsA = fs ++ [(sd, FsEntry.dir)] := by
      have hext := createDirAllFrom_extend D fs [] (FsName.plain (.num sid))
        (by intro k hk0 hk; simpa using hchain k hk0 hk)
        (by simpa using habs)
      have h2 : create_dir_all fs sd = some (fs ++ [(sd, FsEntry.dir)]) := by
        rw [create_dir_all]
        simpa using hext
      rw [h2] at hcreate
      exact ((Option.some.injEq _ _).mp hcreate).symm
    obtain ⟨stems, hstemsEq, houts, hshape⟩ :=
      rotateFrames_shape rotations sid sd frames fsA fsB outs hrot
    have hstemsNodup : stems.Nodup := by
      have h1 : frames.map stemOf = stems.map some := mapM_option_eq_map _ _ _ hstemsEq
      have h2 := hstems (sid, frames) (List.mem_cons_self _ _)
      simp only at h2
      rw [h1] at h2
      exact h2.of_map
    have hfreshA : ∀ st ∈ stems, ∀ e ∈ fsA, e.1 ≠ sd ++ [FsName.ext st "png"] := by
      intro st hst e he heq
      rw [hfsA] at he
      rcases List.mem_append.mp he with he | he
      · exact hfresh_self e he (heq ▸ ⟨[FsName.ext st "png"], rfl⟩)
      · simp only [List.mem_singleton] at he
        subst he
        exact concat_ne_self sd _ heq.symm
    have hfsB : fsB = fsA ++ outs.map fun p => (p, FsEntry.file) :=
      hshape hstemsNodup hfreshA
    have hfsB' : fsB = fs ++ ((sd, FsEntry.dir) :: outs.map fun p => (p, FsEntry.file)) := by
      rw [hfsB, hfsA]; simp
    have hchainB : ∀ k, 0 < k → k ≤ D.length → fsFind fsB (D.take k) = some FsEntry.dir := by
      intro k hk0 hk
      rw [hfsB']
      exact fsFind_append_left _ _ _ _ (hchain k hk0 hk)
    have hDB : fsFind fsB D = some FsEntry.dir := by
      rw [hfsB']; exact fsFind_append_left _ _ _ _ hD
    -- the scan of the block
    have hblockD : childEntries
        ((sd, FsEntry.dir) :: outs.map fun p => (p, FsEntry.file)) D
        = [(FsName.plain (.num sid), FsEntry.dir)] := by
      simp only [childEntries, List.filterMap_cons, childName_concat]
      have hnone : ∀ e ∈ (outs.map fun p => (p, FsEntry.file)),
          (childName D e.1).map (fun n => (n, e.2)) = none := by
        intro e he
        obtain ⟨p, hp, rfl⟩ := List.mem_map.mp he
        rw [houts] at hp
        obtain ⟨st, _, rfl⟩ := List.mem_map.mp hp
        rw [childName_concat_ne D sd _ (by rw [hsd]; exact concat_ne_self D _)]
        rfl
      rw [List.filterMap_eq_nil_iff.mpr hnone, hsd, childName_concat]
      rfl
    have hceB : childEntries fsB D
        = childEntries fs D ++ [(FsName.plain (.num sid), FsEntry.dir)] := by
      rw [hfsB', childEntries_append, hblockD]
    -- old stream directories scan unchanged
    have hSAFold : ∀ e ∈ (childEntries fs D).filter (fun e => e.2 == FsEntry.dir),
        streamArtifactFiles fsB (D ++ [e.1]) "png"
          = streamArtifactFiles fs (D ++ [e.1]) "png" := by
      intro e he
      have hmem := (List.mem_filter.mp he).1
      have hstore := childEntries_mem fs D e hmem
      have hname_ne : e.1 ≠ FsName.plain (.num sid) := by
        intro hcontra
        exact hfresh_self _ hstore (by rw [hcontra])
      rw [hfsB', streamArtifactFiles_append]
      have hblock : streamArtifactFiles
          ((sd, FsEntry.dir) :: outs.map fun p => (p, FsEntry.file)) (D ++ [e.1]) "png"
          = [] := by
        simp only [streamArtifactFiles, childEntries, List.filterMap_cons]
        rw [show childName (D ++ [e.1]) sd = none from by
          rw [hsd]
          exact childName_concat_ne _ D _ (concat_ne_self D e.1).symm]
        have hnone : ∀ f ∈ (outs.map fun p => (p, FsEntry.file)),
            (childName (D ++ [e.1]) f.1).map (fun n => (n, f.2)) = none := by
          intro f hf
          obtain ⟨p, hp, rfl⟩ := List.mem_map.mp hf
          rw [houts] at hp
          obtain ⟨st, _, rfl⟩ := List.mem_map.mp hp
          have hne : sd ≠ D ++ [e.1] := by
            rw [hsd]
            intro h
            have hc := List.append_cancel_left h
            exact hname_ne (by simpa using hc.symm)
          rw [childName_concat_ne (D ++ [e.1]) sd _ hne]
          rfl
        rw [List.filterMap_eq_nil_iff.mpr hnone]
        rfl
      rw [hblock, List.append_nil]
    -- the new stream directory scans to exactly the outputs
    have hSAFnew : streamArtifactFiles fsB sd "png" = outs := by
      rw [hfsB', streamArtifactFiles_append]
      have hold : streamArtifactFiles fs sd "png" = [] := by
        simp only [streamArtifactFiles]
        rw [childEntries_eq_nil fs sd hfresh_self]
        rfl
      have hblockchildren : childEntries
          ((sd, FsEntry.dir) :: outs.map fun p => (p, FsEntry.file)) sd
          = stems.map fun st => (FsName.ext st "png", FsEntry.file) := by
        simp only [childEntries, List.filterMap_cons]
        rw [childName_eq_none sd sd (by simp)]
        show (outs.map fun p => (p, FsEntry.file)).filterMap
            (fun e => (childName sd e.1).map fun n => (n, e.2))
            = stems.map fun st => (FsName.ext st "png", FsEntry.file)
        rw [houts, List.filterMap_map, List.filterMap_map]
        exact filterMap_eq_map_of _ _ _ fun st _ => by
          simp [Function.comp, childName_concat]
      have hblock : streamArtifactFiles
          ((sd, FsEntry.dir) :: outs.map fun p => (p, FsEntry.file)) sd "png"
          = outs := by
        simp only [streamArtifactFiles, hblockchildren, List.filterMap_map]
        rw [houts]
        exact filterMap_eq_map_of _ _ _ fun st _ => by
          simp [Function.comp, extOf]
      rw [hold, hblock, List.nil_append]
    -- assemble the new scan
    simp only [reloadInto, Option.map_eq_some'] at hscan
    obtain ⟨scanned, hscanned, hacc⟩ := hscan
    simp only [reloadScan, hD] at hscanned
    have hscanB : reloadScan fsB D "png" = some (scanned ++ [(sid, outs)]) := by
      simp only [reloadScan, hDB, hceB, List.filter_append]
      rw [List.mapM_append]
      have hcongr : ((childEntries fs D).filter fun e => e.2 == FsEntry.dir).mapM
          (fun e => (parseUsize e.1).map fun sid =>
            (sid, streamArtifactFiles fsB (D ++ [e.1]) "png"))
          = some scanned := by
        rw [mapM_option_congr _ (fun e => (parseUsize e.1).map fun sid =>
            (sid, streamArtifactFiles fs (D ++ [e.1]) "png"))]
        · exact hscanned
        · intro e he
          rw [hSAFold e he]
      rw [hcongr]
      have hsingle : (([(FsName.plain (.num sid), FsEntry.dir)].filter
          fun e => e.2 == FsEntry.dir).mapM
          (fun e => (parseUsize e.1).map fun sid =>
            (sid, streamArtifactFiles fsB (D ++ [e.1]) "png")))
          = some [(sid, outs)] := by
        simp only [List.filter_cons, List.filter_nil]
        rw [if_pos (by rfl)]
        rw [List.mapM_cons]
        simp only [parseUsize, Option.map_some, List.mapM_nil, bind, pure,
          Option.bind_eq_some, Option.some.injEq]
        refine ⟨(sid, streamArtifactFiles fsB (D ++ [FsName.plain (.num sid)]) "png"),
          rfl, [], rfl, ?_⟩
        have := hSAFnew
        rw [hsd] at this
        rw [this]
      rw [hsingle]
      rfl
    have hscanIntoB : reloadInto [] fsB D "png" = some (insertFrames acc sid outs) := by
      simp only [reloadInto, hscanB, Option.map_some', Option.some.injEq]
      rw [List.foldl_append, hacc]
      rfl
    -- invariants for the remaining streams
    have hkeysB : ∀ s ∈ rest, ∀ a ∈ insertFrames acc sid outs, a.1 ≠ s.1 := by
      intro s hs a ha
      rcases insertFrames_mem _ _ _ _ ha with ha' | ha'
      · exact hkeys s (List.mem_cons_of_mem _ hs) a ha'
      · rw [ha']
        intro hcontra
        have : sid ∈ rest.map Prod.fst := List.mem_map.mpr ⟨s, hs, hcontra.symm⟩
        exact (List.nodup_cons.mp (by simpa using hsids)).1 this
    have hfreshB : ∀ s ∈ rest, ∀ e ∈ fsB,
        ¬ ((D ++ [FsName.plain (.num s.1)]) <+: e.1) := by
      intro s hs e he hpre
      rw [hfsB'] at he
      have hne : FsName.plain (.num s.1) ≠ FsName.plain (.num sid) := by
        intro hcontra
        have hsid : s.1 = sid := by simpa using hcontra
        have : sid ∈ rest.map Prod.fst := List.mem_map.mpr ⟨s, hs, hsid⟩
        exact (List.nodup_cons.mp (by simpa using hsids)).1 this
      rcases List.mem_append.mp he with he | he
      · exact hfresh s (List.mem_cons_of_mem _ hs) e he hpre
      · rcases List.mem_cons.mp he with rfl | he
        · have hsdpre : sd <+: sd := List.prefix_refl _
          have := same_length_prefix hpre hsdpre (by simp [hsd])
          exact hne (by simpa [hsd] using this)
        · obtain ⟨p, hp, rfl⟩ := List.mem_map.mp he
          rw [houts] at hp
          obtain ⟨st, _, rfl⟩ := List.mem_map.mp hp
          have hsdpre : sd <+: sd ++ [FsName.ext st "png"] := ⟨_, rfl⟩
          have := same_length_prefix hpre hsdpre (by simp [hsd])
          exact hne (by simpa [hsd] using this)
    exact ih fsB (insertFrames acc sid outs) fs' acc' hrun hchainB hDB hscanIntoB
      hkeysB (by simpa using (List.nodup_cons.mp (by simpa using hsids)).2)
      (fun s hs => hstems s (List.mem_cons_of_mem _ hs)) hfreshB

/-- A run against a filesystem where the stage directory already exists
(and the whole chain is in place) takes the resumed branch: it changes
nothing and just rescans. -/
theorem generate_rotated_resumed (descriptors : List (Option ℚ)) (fs : Fs)
    (sessionDirectory : Path) (rawFrames : List (Nat × List Path))
    (frames : List (Nat × List Path))
    (hex : stage_exists "rotated_frames" fs sessionDirectory = true)
    (hnoop : create_dir_all fs (stage_dir sessionDirectory "rotated_frames") = some fs)
    (hreload : reloadInto [] fs (stage_dir sessionDirectory "rotated_frames") "png"
      = some frames) :
    generate_rotated_frames descriptors fs sessionDirectory rawFrames
      = some (fs, { frames := frames,
                    directory := stage_dir sessionDirectory "rotated_frames" }) := by
  rw [generate_rotated_frames, RotatedFrames.load_from_session, stage_load_from_session]
  simp only [bind, hnoop, Option.some_bind, hreload, hex, Bool.not_true, Bool.false_eq_true,
    if_false]

/-- Shape of any successful `generate_rotated_frames` run: the stage
directory chain exists in the resulting filesystem, the index's directory
field is the stage directory, and rescanning the resulting filesystem
reproduces exactly the index's frame map. -/
theorem generate_rotated_run_shape (descriptors : List (Option ℚ)) (fs0 : Fs)
    (sessionDirectory : Path) (rawFrames : List (Nat × List Path)) (fs1 : Fs)
    (idx1 : FrameIndex)
    (hsids : (rawFrames.map Prod.fst).Nodup)
    (hstems : ∀ s ∈ rawFrames, (s.2.map stemOf).Nodup)
    (hstate : stage_exists "rotated_frames" fs0 sessionDirectory = true ∨
      ∀ e ∈ fs0, ¬ (stage_dir sessionDirectory "rotated_frames" <+: e.1))
    (hrun : generate_rotated_frames descriptors fs0 sessionDirectory rawFrames
      = some (fs1, idx1)) :
    (∀ k, 0 < k → k ≤ (stage_dir sessionDirectory "rotated_frames").length →
      fsFind fs1 ((stage_dir sessionDirectory "rotated_frames").take k)
        = some FsEntry.dir) ∧
    idx1.directory = stage_dir sessionDirectory "rotated_frames" ∧
    reloadInto [] fs1 (stage_dir sessionDirectory "rotated_frames") "png"
      = some idx1.frames := by
  set D := stage_dir sessionDirectory "rotated_frames" with hD
  simp only [generate_rotated_frames, bind, Option.bind_eq_some] at hrun
  obtain ⟨⟨fsL, rotated⟩, hload, hrun⟩ := hrun
  rw [RotatedFrames.load_from_session] at hload
  simp only [stage_load_from_session, bind, Option.bind_eq_some] at hload
  obtain ⟨fsC, hcreate, hload⟩ := hload
  obtain ⟨frames, hreload, hload⟩ := hload
  simp only [Option.some.injEq, Prod.mk.injEq] at hload
  obtain ⟨rfl, rfl⟩ := hload
  rw [create_dir_all] at hcreate
  have hchain1 : ∀ k, 0 < k → k ≤ D.length → fsFind fsC (D.take k) = some FsEntry.dir := by
    intro k hk0 hk
    have := createDirAllFrom_chain D fs0 [] fsC hcreate k hk0 hk
    simpa using this
  have hDlen : 0 < D.length := by simp [hD, stage_dir]
  have hD1 : fsFind fsC D = some FsEntry.dir := by
    have := hchain1 D.length hDlen (le_refl _)
    simpa [List.take_length] using this
  by_cases hex : stage_exists "rotated_frames" fs0 sessionDirectory
  · -- the first run was itself resumed
    rw [hex] at hrun
    simp only [Bool.not_true, Bool.false_eq_true, if_false, Option.some.injEq,
      Prod.mk.injEq] at hrun
    obtain ⟨rfl, rfl⟩ := hrun
    exact ⟨hchain1, rfl, hreload⟩
  · -- the first run computed into a clean stage directory
    have hclean : ∀ e ∈ fs0, ¬ (D <+: e.1) := by
      rcases hstate with h | h
      · exact absurd h hex
      · exact h
    rw [Bool.not_eq_true] at hex
    rw [hex] at hrun
    simp only [Bool.not_false, if_true, Option.bind_eq_some] at hrun
    obtain ⟨⟨fs2, frames2⟩, hrot, hrun⟩ := hrun
    simp only [Option.some.injEq, Prod.mk.injEq] at hrun
    obtain ⟨rfl, rfl⟩ := hrun
    -- the freshly created stage directory is empty, so the loaded index is empty
    obtain ⟨extra, hfseq, hextra⟩ := createDirAllFrom_shape D fs0 [] fsC hcreate
    have hce : childEntries fsC D = [] := by
      rw [hfseq, childEntries_append]
      rw [childEntries_eq_nil fs0 D hclean, List.nil_append]
      rw [childEntries, List.filterMap_eq_nil_iff]
      intro e he
      obtain ⟨⟨k, hk0, hk, hpath⟩, -⟩ := hextra e he
      have hcn : childName D e.1 = none := by
        apply childName_eq_none
        rw [hpath]
        simp only [List.nil_append, List.length_take]
        omega
      rw [hcn]
      rfl
    have hframes_nil : frames = [] := by
      have hnil : reloadInto [] fsC D "png" = some [] := by
        simp only [reloadInto, reloadScan, hD1, hce]
        rfl
      rw [hnil] at hreload
      exact ((Option.some.injEq _ _).mp hreload).symm
    subst hframes_nil
    -- freshness of every pending stream directory
    have hfresh : ∀ s ∈ rawFrames, ∀ e ∈ fsC,
        ¬ ((D ++ [FsName.plain (.num s.1)]) <+: e.1) := by
      intro s hs e he hpre
      rw [hfseq] at he
      rcases List.mem_append.mp he with he | he
      · exact hclean e he (List.IsPrefix.trans ⟨[FsName.plain (.num s.1)], rfl⟩ hpre)
      · obtain ⟨⟨k, hk0, hk, hpath⟩, -⟩ := hextra e he
        have hlen := List.IsPrefix.length_le hpre
        rw [hpath] at hlen
        simp only [List.nil_append, List.length_take, List.length_append,
          List.length_cons, List.length_nil] at hlen
        omega
    have hres := rotateStreams_resume
      (descriptors.enum.map fun e => (e.1, e.2.getD 0)) D rawFrames fsC [] fs2 frames2
      hrot hchain1 hD1 hreload (by simp) hsids hstems hfresh
    obtain ⟨hchain2, hD2, hscan2⟩ := hres
    exact ⟨hchain2, rfl, hscan2⟩

/-! The real program's enumeration order is unspecified: `read_dir`
returns directory entries in an OS-dependent order, and the first run's
`par_iter` writes the artifact files in a nondeterministic interleaving.
The model captures an alternative legal enumeration of the same on-disk
state as a permutation of the flat store.  The lemmas below show the
rescan is stable under such permutations only up to per-stream
reordering. -/

/-- `self.frames.get(&stream_id)` — map lookup in the model's association
list. -/
def framesOf (m : List (Nat × List Path)) (sid : Nat) : Option (List Path) :=
  (m.find? fun e => e.1 == sid).map Prod.snd

/-- Two optional artifact lists that agree up to ordering. -/
def optionPermEq : Option (List Path) → Option (List Path) → Prop
  | none, none => True
  | some l, some l' => l.Perm l'
  | _, _ => False

theorem eq_of_fst_eq_of_nodup {α β : Type} (l : List (α × β))
    (hnd : (l.map Prod.fst).Nodup) :
    ∀ a ∈ l, ∀ b ∈ l, a.1 = b.1 → a = b := by
  induction l with
  | nil => intro a ha; exact absurd ha (List.not_mem_nil _)
  | cons x t ih =>
    rw [List.map_cons, List.nodup_cons] at hnd
    intro a ha b hb hab
    rcases List.mem_cons.mp ha with ha1 | ha2
    · rcases List.mem_cons.mp hb with hb1 | hb2
      · rw [ha1, hb1]
      · refine absurd ?_ hnd.1
        refine List.mem_map.mpr ⟨b, hb2, ?_⟩
        rw [← hab, ha1]
    · rcases List.mem_cons.mp hb with hb1 | hb2
      · refine absurd ?_ hnd.1
        refine List.mem_map.mpr ⟨a, ha2, ?_⟩
        rw [hab, hb1]
      · exact ih hnd.2 a ha2 b hb2 hab

theorem find?_path_of_mem (fs : Fs) (p : Path) (v : FsEntry)
    (hnd : (fs.map Prod.fst).Nodup) (hmem : (p, v) ∈ fs) :
    fs.find? (fun e => decide (e.1 = p)) = some (p, v) := by
  induction fs with
  | nil => exact absurd hmem (List.not_mem_nil _)
  | cons a t ih =>
    rw [List.map_cons, List.nodup_cons] at hnd
    rcases List.mem_cons.mp hmem with rfl | hm
    · rw [List.find?_cons_of_pos _ (by simp)]
    · have hne : ¬ (a.1 = p) := by
        intro he
        exact hnd.1 (he ▸ List.mem_map.mpr ⟨(p, v), hm, rfl⟩)
      rw [List.find?_cons_of_neg _ (by simpa using hne)]
      exact ih hnd.2 hm

theorem find?_sid_of_mem (m : List (Nat × List Path)) (k : Nat) (v : List Path)
    (hnd : (m.map Prod.fst).Nodup) (hmem : (k, v) ∈ m) :
    m.find? (fun e => e.1 == k) = some (k, v) := by
  induction m with
  | nil => exact absurd hmem (List.not_mem_nil _)
  | cons a t ih =>
    rw [List.map_cons, List.nodup_cons] at hnd
    rcases List.mem_cons.mp hmem with rfl | hm
    · rw [List.find?_cons_of_pos _ (by simp)]
    · have hne : ¬ (a.1 = k) := by
        intro he
        exact hnd.1 (he ▸ List.mem_map.mpr ⟨(k, v), hm, rfl⟩)
      rw [List.find?_cons_of_neg _ (by simpa using hne)]
      exact ih hnd.2 hm

/-- In a store with unique paths — every real filesystem — lookup is
insensitive to enumeration order. -/
theorem fsFind_perm (fs fs' : Fs) (hnd : (fs.map Prod.fst).Nodup)
    (hperm : fs.Perm fs') (p : Path) : fsFind fs' p = fsFind fs p := by
  have hnd' : (fs'.map Prod.fst).Nodup := ((hperm.map Prod.fst).nodup_iff).mp hnd
  cases hf : fsFind fs p with
  | some v =>
    have hmem : (p, v) ∈ fs := by
      unfold fsFind at hf
      simp only [Option.map_eq_some'] at hf
      obtain ⟨e, he, hev⟩ := hf
      have hkey : e.1 = p := by simpa using List.find?_some he
      have hmm := List.mem_of_find?_eq_some he
      obtain ⟨q, w⟩ := e
      dsimp only at hkey hev
      subst hkey
      subst hev
      exact hmm
    have hmem' : (p, v) ∈ fs' := hperm.mem_iff.mp hmem
    unfold fsFind
    rw [find?_path_of_mem fs' p v hnd' hmem']
    rfl
  | none =>
    rw [fsFind_eq_none_iff] at hf
    rw [fsFind_eq_none_iff]
    intro e he
    exact hf e (hperm.mem_iff.mpr he)

theorem childEntries_perm (fs fs' : Fs) (hperm : fs.Perm fs') (p : Path) :
    (childEntries fs p).Perm (childEntries fs' p) := by
  unfold childEntries
  exact hperm.filterMap _

theorem streamArtifactFiles_perm (fs fs' : Fs) (hperm : fs.Perm fs')
    (d : Path) (w : String) :
    (streamArtifactFiles fs d w).Perm (streamArtifactFiles fs' d w) := by
  unfold streamArtifactFiles
  exact (childEntries_perm fs fs' hperm d).filterMap _

theorem parseUsize_inj (a b : FsName) (k : Nat) (ha : parseUsize a = some k)
    (hb : parseUsize b = some k) : a = b := by
  cases a with
  | plain ba =>
    cases ba with
    | num n =>
      cases b with
      | plain bb =>
        cases bb with
        | num m =>
          simp only [parseUsize, Option.some.injEq] at ha hb
          rw [ha, hb]
        | str s => simp [parseUsize] at hb
      | ext st e => simp [parseUsize] at hb
    | str s => simp [parseUsize] at ha
  | ext st e => simp [parseUsize] at ha

/-- Distinct paths under one parent carry distinct child names. -/
theorem childEntries_names_nodup (fs : Fs) (p : Path)
    (hnd : (fs.map Prod.fst).Nodup) : ((childEntries fs p).map Prod.fst).Nodup := by
  have he : (childEntries fs p).map Prod.fst
      = (fs.map Prod.fst).filterMap (childName p) := by
    rw [childEntries, List.map_filterMap, List.filterMap_map]
    congr 1
    funext e
    cases h : childName p e.1 <;> simp [h, Function.comp]
  rw [he]
  refine List.Nodup.filterMap ?_ hnd
  intro q q' n hq hq'
  rw [childName_eq_some p q n (Option.mem_def.mp hq),
    childName_eq_some p q' n (Option.mem_def.mp hq')]

theorem mapM_option_of_forall {α β : Type} (f : α → Option β) (g : α → β) :
    ∀ l : List α, (∀ a ∈ l, f a = some (g a)) → l.mapM f = some (l.map g) := by
  intro l
  induction l with
  | nil => intro h; rfl
  | cons a t ih =>
    intro h
    rw [List.mapM_cons, h a (List.mem_cons_self _ _),
      ih fun b hb => h b (List.mem_cons_of_mem _ hb)]
    rfl

/-- Folding `insert` over pairwise-fresh stream ids just appends. -/
theorem foldl_insertFrames_nodup (s : List (Nat × List Path)) :
    ∀ acc : List (Nat × List Path),
      ((acc ++ s).map Prod.fst).Nodup →
      s.foldl (fun acc e => insertFrames acc e.1 e.2) acc = acc ++ s := by
  induction s with
  | nil => intro acc h; simp
  | cons e t ih =>
    intro acc hnd
    rw [List.foldl_cons]
    have hfresh : ∀ a ∈ acc, a.1 ≠ e.1 := by
      intro a ha hae
      have h1 := hnd
      rw [List.map_append, List.nodup_append] at h1
      exact h1.2.2 (List.mem_map.mpr ⟨a, ha, rfl⟩) (by rw [hae]; simp)
    have hstep : insertFrames acc e.1 e.2 = acc ++ [e] := by
      rw [insertFrames_fresh acc e.1 e.2 hfresh]
    rw [hstep, ih (acc ++ [e]) (by simpa using hnd)]
    simp

/-- Rescanning a stage directory under a different — but content-equal —
enumeration of the store: the reload still succeeds, returns the same
stream ids, and per stream the same artifact paths up to ordering. -/
theorem reloadInto_perm (fs fs' : Fs) (D : Path) (w : String)
    (hnd : (fs.map Prod.fst).Nodup) (hperm : fs.Perm fs')
    (r : List (Nat × List Path)) (h : reloadInto [] fs D w = some r) :
    ∃ r', reloadInto [] fs' D w = some r' ∧
      (r'.map Prod.fst).Perm (r.map Prod.fst) ∧
      ∀ sid, optionPermEq (framesOf r' sid) (framesOf r sid) := by
  simp only [reloadInto, Option.map_eq_some'] at h
  obtain ⟨scanned, hscan, hr⟩ := h
  simp only [reloadScan] at hscan
  cases hfind : fsFind fs D with
  | none => rw [hfind] at hscan; exact absurd hscan (by simp)
  | some entry =>
    cases entry with
    | file => rw [hfind] at hscan; exact absurd hscan (by simp)
    | dir =>
      rw [hfind] at hscan
      set children := (childEntries fs D).filter (fun e => e.2 == FsEntry.dir) with hch
      set children' := (childEntries fs' D).filter (fun e => e.2 == FsEntry.dir) with hch'
      have hscanM : children.mapM (fun e => (parseUsize e.1).map
          fun sid => (sid, streamArtifactFiles fs (D ++ [e.1]) w)) = some scanned := hscan
      have hcperm : children.Perm children' :=
        (childEntries_perm fs fs' hperm D).filter _
      have hpt : ∀ e ∈ children, ∃ sid, parseUsize e.1 = some sid := by
        intro e he
        have hmm := mapM_option_eq_map _ children scanned hscanM
        have hmem : ((parseUsize e.1).map
            fun sid => (sid, streamArtifactFiles fs (D ++ [e.1]) w))
            ∈ scanned.map some := by
          rw [← hmm]
          exact List.mem_map_of_mem _ he
        obtain ⟨b, hbm, hb⟩ := List.mem_map.mp hmem
        obtain ⟨sid, hsid, hrest⟩ := Option.map_eq_some'.mp hb.symm
        exact ⟨sid, hsid⟩
      have hfg : ∀ e ∈ children,
          ((parseUsize e.1).map fun sid => (sid, streamArtifactFiles fs (D ++ [e.1]) w))
            = some ((parseUsize e.1).getD 0, streamArtifactFiles fs (D ++ [e.1]) w) := by
        intro e he
        obtain ⟨sid, hsid⟩ := hpt e he
        rw [hsid]
        rfl
      have hfg' : ∀ e ∈ children',
          ((parseUsize e.1).map fun sid => (sid, streamArtifactFiles fs' (D ++ [e.1]) w))
            = some ((parseUsize e.1).getD 0, streamArtifactFiles fs' (D ++ [e.1]) w) := by
        intro e he
        obtain ⟨sid, hsid⟩ := hpt e (hcperm.mem_iff.mpr he)
        rw [hsid]
        rfl
      have hscanned : scanned = children.map
          (fun e => ((parseUsize e.1).getD 0, streamArtifactFiles fs (D ++ [e.1]) w)) := by
        have hthis := mapM_option_of_forall _ _ children hfg
        rw [hscanM] at hthis
        exact Option.some.inj hthis
      have hnamesN : (children.map Prod.fst).Nodup :=
        List.Nodup.sublist ((List.filter_sublist _).map _)
          (childEntries_names_nodup fs D hnd)
      have hchildN : children.Nodup := List.Nodup.of_map _ hnamesN
      have hkey0 : scanned.map Prod.fst
          = children.map (fun e => (parseUsize e.1).getD 0) := by
        rw [hscanned, List.map_map]
        rfl
      have hkS : (scanned.map Prod.fst).Nodup := by
        rw [hkey0]
        refine List.Nodup.map_on ?_ hchildN
        intro x hx y hy hxy
        obtain ⟨sx, hsx⟩ := hpt x hx
        obtain ⟨sy, hsy⟩ := hpt y hy
        rw [hsx, hsy] at hxy
        simp only [Option.getD_some] at hxy
        have hname : x.1 = y.1 := parseUsize_inj x.1 y.1 sy (hxy ▸ hsx) hsy
        exact eq_of_fst_eq_of_nodup children hnamesN x hx y hy hname
      have hkey' : (children'.map
            (fun e => ((parseUsize e.1).getD 0,
              streamArtifactFiles fs' (D ++ [e.1]) w))).map Prod.fst
          = children'.map (fun e => (parseUsize e.1).getD 0) := by
        rw [List.map_map]
        rfl
      have hkeysPerm : ((children'.map
            (fun e => ((parseUsize e.1).getD 0,
              streamArtifactFiles fs' (D ++ [e.1]) w))).map Prod.fst).Perm
          (scanned.map Prod.fst) := by
        rw [hkey', hkey0]
        exact hcperm.symm.map _
      have hkS' : ((children'.map
            (fun e => ((parseUsize e.1).getD 0,
              streamArtifactFiles fs' (D ++ [e.1]) w))).map Prod.fst).Nodup :=
        hkeysPerm.nodup_iff.mpr hkS
      have hrs : r = scanned := by
        rw [← hr, foldl_insertFrames_nodup _ [] (by simpa using hkS)]
        simp
      rw [hrs]
      have hscan2 : reloadInto [] fs' D w = some (children'.map
          (fun e => ((parseUsize e.1).getD 0,
            streamArtifactFiles fs' (D ++ [e.1]) w))) := by
        have hfind' : fsFind fs' D = some FsEntry.dir := by
          rw [fsFind_perm fs fs' hnd hperm D, hfind]
        simp only [reloadInto, reloadScan, hfind']
        rw [mapM_option_of_forall _ _ children' hfg']
        simp only [Option.map_some']
        rw [foldl_insertFrames_nodup _ [] (by simpa using hkS')]
        simp
      refine ⟨_, hscan2, hkeysPerm, ?_⟩
      intro sid
      cases hfo : framesOf scanned sid with
      | some l =>
        unfold framesOf at hfo
        simp only [Option.map_eq_some'] at hfo
        obtain ⟨q, hq, hql⟩ := hfo
        have hqmem := List.mem_of_find?_eq_some hq
        have hqkey : q.1 = sid := by simpa using List.find?_some hq
        rw [hscanned] at hqmem
        obtain ⟨e, he, hge⟩ := List.mem_map.mp hqmem
        have he' : e ∈ children' := hcperm.mem_iff.mp he
        have hekey : (parseUsize e.1).getD 0 = sid := by
          rw [← hqkey, ← hge]
        have hmem' : (sid, streamArtifactFiles fs' (D ++ [e.1]) w)
            ∈ children'.map (fun e => ((parseUsize e.1).getD 0,
              streamArtifactFiles fs' (D ++ [e.1]) w)) := by
          refine List.mem_map.mpr ⟨e, he', ?_⟩
          rw [hekey]
        have hres : framesOf (children'.map
            (fun e => ((parseUsize e.1).getD 0,
              streamArtifactFiles fs' (D ++ [e.1]) w))) sid
            = some (streamArtifactFiles fs' (D ++ [e.1]) w) := by
          unfold framesOf
          rw [find?_sid_of_mem _ sid _ hkS' hmem']
          rfl
        rw [hres]
        have hl : l = streamArtifactFiles fs (D ++ [e.1]) w := by
          rw [← hql, ← hge]
        rw [hl]
        exact (streamArtifactFiles_perm fs fs' hperm _ w).symm
      | none =>
        unfold framesOf at hfo
        rw [Option.map_eq_none'] at hfo
        rw [List.find?_eq_none] at hfo
        have hres : framesOf (children'.map
            (fun e => ((parseUsize e.1).getD 0,
              streamArtifactFiles fs' (D ++ [e.1]) w))) sid = none := by
          unfold framesOf
          rw [Option.map_eq_none', List.find?_eq_none]
          intro x hx hxk
          have hx1 : x.1 ∈ (children'.map (fun e => ((parseUsize e.1).getD 0,
              streamArtifactFiles fs' (D ++ [e.1]) w))).map Prod.fst :=
            List.mem_map.mpr ⟨x, hx, rfl⟩
          have hx2 : x.1 ∈ scanned.map Prod.fst := hkeysPerm.mem_iff.mp hx1
          obtain ⟨y, hy, hyk⟩ := List.mem_map.mp hx2
          rw [beq_iff_eq] at hxk
          exact hfo y hy (by rw [beq_iff_eq, hyk, hxk])
        rw [hres]
        trivial

/-- **C3 (amended).** Running the `RotatedFrames` stage runner a second
time against a session whose stage directory the first run left behind:
the second run takes the resumed branch, writes nothing to disk and
recomputes nothing, and its reloaded index holds, for every stream id,
exactly the artifact paths the first run produced — but only up to
per-stream reordering, because the rescan reads the directory in an
unspecified enumeration order (modelled by quantifying over every
permutation `fs'` of the store the first run left).  Hypotheses: the
input raw-frame index has distinct stream ids and per-stream distinct
filename stems, the store has unique paths, and the session starts
either already resumed or clean below the stage directory. -/
theorem rotated_stage_resume_up_to_enumeration
    (descriptors : List (Option ℚ)) (fs0 : Fs) (sessionDirectory : Path)
    (rawFrames : List (Nat × List Path)) (fs1 fs' : Fs) (idx1 : FrameIndex)
    (hsids : (rawFrames.map Prod.fst).Nodup)
    (hstems : ∀ s ∈ rawFrames, (s.2.map stemOf).Nodup)
    (hstate : stage_exists "rotated_frames" fs0 sessionDirectory = true ∨
      ∀ e ∈ fs0, ¬ (stage_dir sessionDirectory "rotated_frames" <+: e.1))
    (hrun : generate_rotated_frames descriptors fs0 sessionDirectory rawFrames
      = some (fs1, idx1))
    (hkeys : (fs1.map Prod.fst).Nodup)
    (hperm : fs1.Perm fs') :
    stage_exists "rotated_frames" fs' sessionDirectory = true ∧
    ∃ frames', generate_rotated_frames descriptors fs' sessionDirectory rawFrames
        = some (fs', { frames := frames', directory := idx1.directory }) ∧
      ∀ sid, optionPermEq (framesOf frames' sid) (framesOf idx1.frames sid) := by
  obtain ⟨hchain1, hdir, hreload1⟩ := generate_rotated_run_shape descriptors fs0
    sessionDirectory rawFrames fs1 idx1 hsids hstems hstate hrun
  set D := stage_dir sessionDirectory "rotated_frames" with hD
  have hDlen : 0 < D.length := by simp [hD, stage_dir]
  have hD1 : fsFind fs1 D = some FsEntry.dir := by
    have := hchain1 D.length hDlen (le_refl _)
    simpa [List.take_length] using this
  have hchain' : ∀ k, 0 < k → k ≤ D.length →
      fsFind fs' (D.take k) = some FsEntry.dir := by
    intro k hk0 hk
    rw [fsFind_perm fs1 fs' hkeys hperm (D.take k)]
    exact hchain1 k hk0 hk
  have hD' : fsFind fs' D = some FsEntry.dir := by
    rw [fsFind_perm fs1 fs' hkeys hperm D]
    exact hD1
  have hex' : stage_exists "rotated_frames" fs' sessionDirectory = true := by
    simp only [stage_exists, ← hD, hD']
    rfl
  have hnoop' : create_dir_all fs' D = some fs' := by
    rw [create_dir_all]
    exact createDirAllFrom_noop D fs' [] (by simpa using hchain')
  obtain ⟨r', hr', hkeysPerm, hsidwise⟩ :=
    reloadInto_perm fs1 fs' D "png" hkeys hperm idx1.frames hreload1
  refine ⟨hex', r', ?_, hsidwise⟩
  rw [hdir]
  exact generate_rotated_resumed descriptors fs' sessionDirectory rawFrames r'
    hex' hnoop' hr'

/-- A one-camera session with two frames, to exhibit the reordering. -/
def cex3Session : Path := [FsName.plain (.str "capture"), FsName.plain (.num 0)]

def cex3Raw1 : Path :=
  cex3Session ++ [FsName.plain (.str "frames"), FsName.plain (.num 0),
    FsName.ext (.num 1) "png"]

def cex3Raw2 : Path :=
  cex3Session ++ [FsName.plain (.str "frames"), FsName.plain (.num 0),
    FsName.ext (.num 2) "png"]

def cex3Fs0 : Fs := [(cex3Raw1, FsEntry.file), (cex3Raw2, FsEntry.file)]

def cex3Out1 : Path :=
  cex3Session ++ [FsName.plain (.str "rotated_frames"), FsName.plain (.num 0),
    FsName.ext (.num 1) "png"]

def cex3Out2 : Path :=
  cex3Session ++ [FsName.plain (.str "rotated_frames"), FsName.plain (.num 0),
    FsName.ext (.num 2) "png"]

/-- The store the first run leaves, in the model's creation order. -/
def cex3Fs1 : Fs :=
  cex3Fs0 ++
    [([FsName.plain (.str "capture")], FsEntry.dir),
     (cex3Session, FsEntry.dir),
     (cex3Session ++ [FsName.plain (.str "rotated_frames")], FsEntry.dir),
     (cex3Session ++ [FsName.plain (.str "rotated_frames"),
       FsName.plain (.num 0)], FsEntry.dir),
     (cex3Out1, FsEntry.file), (cex3Out2, FsEntry.file)]

/-- The same on-disk state under another legal enumeration order: the
two artifact files of stream 0 enumerate in the opposite order. -/
def cex3Fs1swapped : Fs :=
  cex3Fs0 ++
    [([FsName.plain (.str "capture")], FsEntry.dir),
     (cex3Session, FsEntry.dir),
     (cex3Session ++ [FsName.plain (.str "rotated_frames")], FsEntry.dir),
     (cex3Session ++ [FsName.plain (.str "rotated_frames"),
       FsName.plain (.num 0)], FsEntry.dir),
     (cex3Out2, FsEntry.file), (cex3Out1, FsEntry.file)]

def cex3Idx1 : FrameIndex :=
  { frames := [(0, [cex3Out1, cex3Out2])],
    directory := cex3Session ++ [FsName.plain (.str "rotated_frames")] }

def cex3Idx2 : FrameIndex :=
  { frames := [(0, [cex3Out2, cex3Out1])],
    directory := cex3Session ++ [FsName.plain (.str "rotated_frames")] }

/-- Counterexample to the claim's sequence-equality conclusion: the first
run builds its index in collect order `[1.png, 2.png]`; the second run
rescans the identical on-disk state — a store permutation, since
`read_dir` order is unspecified and the parallel writes could land either
way — resumes without writing, yet returns the per-stream sequence
`[2.png, 1.png]`, a reordering of (not the same sequence as) the first
run's. -/
theorem rotated_resume_order_counterexample :
    generate_rotated_frames [some 0] cex3Fs0 cex3Session [(0, [cex3Raw1, cex3Raw2])]
      = some (cex3Fs1, cex3Idx1) ∧
    cex3Fs1.Perm cex3Fs1swapped ∧
    generate_rotated_frames [some 0] cex3Fs1swapped cex3Session
      [(0, [cex3Raw1, cex3Raw2])] = some (cex3Fs1swapped, cex3Idx2) ∧
    framesOf cex3Idx1.frames 0 = some [cex3Out1, cex3Out2] ∧
    framesOf cex3Idx2.frames 0 = some [cex3Out2, cex3Out1] ∧
    cex3Idx2.frames ≠ cex3Idx1.frames :=
  ⟨by decide, by decide, by decide, by decide, by decide, by decide⟩

/-- Concrete instantiation of the amended resume theorem at the
counterexample's data: rerunning on the reordered enumeration of the
first run's output resumes, writes nothing, and agrees with the first
run's index up to per-stream ordering. -/
theorem rotated_stage_resume_up_to_enumeration_witness :
    stage_exists "rotated_frames" cex3Fs1swapped cex3Session = true ∧
    ∃ frames', generate_rotated_frames [some 0] cex3Fs1swapped cex3Session
        [(0, [cex3Raw1, cex3Raw2])]
        = some (cex3Fs1swapped, { frames := frames', directory := cex3Idx1.directory }) ∧
      ∀ sid, optionPermEq (framesOf frames' sid) (framesOf cex3Idx1.frames sid) :=
  rotated_stage_resume_up_to_enumeration [some 0] cex3Fs0 cex3Session
    [(0, [cex3Raw1, cex3Raw2])] cex3Fs1 cex3Fs1swapped cex3Idx1
    (by decide) (by decide) (Or.inr (by decide)) (by decide) (by decide) (by decide)

end LightField
